import Mathlib

/-!
Verification of the publican static-site build pipeline against its
specification.  Each group of definitions below is a shallow embedding of
one source function (file and symbol named in the doc comments); theorems
settle the specification's claims about those functions.
-/

namespace Publican

/-! ## Expression scanner (`extractExpressions`, src/unnamed/part_011)

The scanner walks a string looking for `${`, `!{` (and, because the
source regex `[$|!]\{` places `|` inside a character class, also `|{`)
markers, then finds the matching close brace while tracking brace depth
and single/double/backtick quoting with backslash-escape awareness.
Strings are embedded as `List Char`. -/

/-- Double-quote character (`"`), one of the quote delimiters recognised by
`extractExpressions`. -/
def quoteD : Char := Char.ofNat 34

/-- Single-quote character, one of the quote delimiters recognised by
`extractExpressions`. -/
def quoteS : Char := Char.ofNat 39

/-- Backtick character, one of the quote delimiters recognised by
`extractExpressions`. -/
def quoteB : Char := Char.ofNat 96

/-- Backslash character, used by the scanner's escape check. -/
def backslash : Char := Char.ofNat 92

/-- The characters the source regex `[$|!]\{` accepts before `{`:
`$`, `|` (a literal inside the class) and `!`. -/
def isMarkerChar (c : Char) : Bool := c = '$' || c = '|' || c = '!'

/-- `findMarker l` models `findExp.exec(str)` from position `i`: it finds the
first two-character expression marker, returning the text before it, the
marker character, and the characters after the `{`. -/
def findMarker : List Char → Option (List Char × Char × List Char)
  | [] => none
  | [_] => none
  | c :: d :: rest =>
    if isMarkerChar c ∧ d = '{' then some ([], c, rest)
    else (findMarker (d :: rest)).map (fun pr => (c :: pr.1, pr.2.1, pr.2.2))

/-- `findEnd l quote bCount prev` models the inner `for` loop of
`extractExpressions` that searches for the close brace of an expression:
`quote` is the open quote state, `bCount` the brace depth, `prev` the
previous character (the loop checks `str[j-1] !== '\\'` for escapes).
On success it returns the consumed characters (up to and including the
closing `}`) and the remainder. -/
def findEnd : List Char → Option Char → Nat → Char → Option (List Char × List Char)
  | [], _, _, _ => none
  | c :: rest, some q, bCount, prev =>
    if c = q ∧ prev ≠ backslash then
      (findEnd rest none bCount c).map (fun pr => (c :: pr.1, pr.2))
    else
      (findEnd rest (some q) bCount c).map (fun pr => (c :: pr.1, pr.2))
  | c :: rest, none, bCount, prev =>
    if c = quoteD ∨ c = quoteS ∨ c = quoteB then
      (findEnd rest (some c) bCount c).map (fun pr => (c :: pr.1, pr.2))
    else if c = '{' then
      (findEnd rest none (bCount + 1) c).map (fun pr => (c :: pr.1, pr.2))
    else if c = '}' then
      if bCount = 1 then some ([c], rest)
      else (findEnd rest none (bCount - 1) c).map (fun pr => (c :: pr.1, pr.2))
    else
      (findEnd rest none bCount c).map (fun pr => (c :: pr.1, pr.2))

theorem findMarker_eq (l : List Char) :
    ∀ pre m after2, findMarker l = some (pre, m, after2) →
      l = pre ++ m :: '{' :: after2 := by
  induction l with
  | nil => intro pre m after2 h; simp [findMarker] at h
  | cons c rest ih =>
    intro pre m after2 h
    cases rest with
    | nil => simp [findMarker] at h
    | cons d rest2 =>
      rw [findMarker] at h
      by_cases hc : isMarkerChar c ∧ d = '{'
      · rw [if_pos hc] at h
        simp only [Option.some.injEq, Prod.mk.injEq] at h
        obtain ⟨h1, h2, h3⟩ := h
        subst h1; subst h2; subst h3
        simp [hc.2]
      · rw [if_neg hc, Option.map_eq_some'] at h
        obtain ⟨⟨p2, m2, a2⟩, hsome, heq⟩ := h
        have := ih p2 m2 a2 hsome
        simp only [Prod.mk.injEq] at heq
        obtain ⟨h1, h2, h3⟩ := heq
        subst h1; subst h2; subst h3
        simp [this]

theorem findEnd_eq (l : List Char) :
    ∀ q b pr body rest, findEnd l q b pr = some (body, rest) →
      l = body ++ rest ∧ body ≠ [] := by
  induction l with
  | nil => intro q b pr body rest h; cases q <;> simp [findEnd] at h
  | cons c cs ih =>
    intro q b pr body rest h
    cases q with
    | some qc =>
      rw [findEnd] at h
      split at h <;>
      · simp only [Option.map_eq_some'] at h
        obtain ⟨⟨b', r'⟩, hsome, heq⟩ := h
        have := ih _ _ _ _ _ hsome
        simp at heq
        obtain ⟨h1, h2⟩ := heq
        subst h1; subst h2
        simp [this.1]
    | none =>
      rw [findEnd] at h
      split at h
      · simp only [Option.map_eq_some'] at h
        obtain ⟨⟨b', r'⟩, hsome, heq⟩ := h
        have := ih _ _ _ _ _ hsome
        simp at heq
        obtain ⟨h1, h2⟩ := heq
        subst h1; subst h2
        simp [this.1]
      · split at h
        · simp only [Option.map_eq_some'] at h
          obtain ⟨⟨b', r'⟩, hsome, heq⟩ := h
          have := ih _ _ _ _ _ hsome
          simp at heq
          obtain ⟨h1, h2⟩ := heq
          subst h1; subst h2
          simp [this.1]
        · split at h
          · split at h
            · simp at h
              obtain ⟨h1, h2⟩ := h
              subst h1; subst h2
              simp
            · simp only [Option.map_eq_some'] at h
              obtain ⟨⟨b', r'⟩, hsome, heq⟩ := h
              have := ih _ _ _ _ _ hsome
              simp at heq
              obtain ⟨h1, h2⟩ := heq
              subst h1; subst h2
              simp [this.1]
          · simp only [Option.map_eq_some'] at h
            obtain ⟨⟨b', r'⟩, hsome, heq⟩ := h
            have := ih _ _ _ _ _ hsome
            simp at heq
            obtain ⟨h1, h2⟩ := heq
            subst h1; subst h2
            simp [this.1]

theorem findEnd_rest_lt (l : List Char) (q : Option Char) (b : Nat) (pr : Char)
    (body rest : List Char) (h : findEnd l q b pr = some (body, rest)) :
    rest.length < l.length := by
  obtain ⟨heq, hne⟩ := findEnd_eq l q b pr body rest h
  subst heq
  simp
  exact List.length_pos.mpr hne

/-- Result of `extractExpressions`: `md` are the text segments, `exp` the
expression strings, interleaved as `md[0] ++ exp[0] ++ md[1] ++ …`. -/
structure ScanResult where
  md : List (List Char)
  exp : List (List Char)
deriving DecidableEq, Repr

/-- `scanExpr` models `extractExpressions` (src/unnamed/part_011 lines
159–219).  On each iteration it looks for the next marker; without one the
remaining text becomes the final `md` entry.  With a marker it first pushes
the text before the marker onto `md`, then searches for the close brace:
on success the expression is pushed and scanning continues after it; on
failure the loop breaks and the code pushes `str.slice(i)` — the whole
current suffix, *including* the text segment just pushed. -/
def scanExpr (l : List Char) : ScanResult :=
  match h : findMarker l with
  | none => ⟨[l], []⟩
  | some (pre, m, after2) =>
    match h2 : findEnd after2 none 1 '{' with
    | none => ⟨[pre, l], []⟩
    | some (body, rest) =>
      let r := scanExpr rest
      ⟨pre :: r.md, (m :: '{' :: body) :: r.exp⟩
termination_by l.length
decreasing_by
  have hl := findMarker_eq l pre m after2 h
  have h3 := findEnd_rest_lt after2 none 1 '{' body rest h2
  subst hl
  simp
  omega

/-- `joinScan md exp` concatenates `md[0] ++ exp[0] ++ md[1] ++ exp[1] ++ …`,
the documented reading order of a `ScanResult`. -/
def joinScan : List (List Char) → List (List Char) → List Char
  | m :: ms, e :: es => m ++ e ++ joinScan ms es
  | ms, [] => ms.flatten
  | [], es => es.flatten

/-- `wellScanned l` holds when every expression marker the scan encounters
has a matching close brace (markers balanced and not hidden inside an
unterminated quoted literal): the scan never takes the unterminated-span
break. -/
def wellScanned (l : List Char) : Bool :=
  match h : findMarker l with
  | none => true
  | some (_, _, after2) =>
    match h2 : findEnd after2 none 1 '{' with
    | none => false
    | some (_, rest) => wellScanned rest
termination_by l.length
decreasing_by
  have hl := findMarker_eq l _ _ after2 h
  have h3 := findEnd_rest_lt after2 none 1 '{' _ rest h2
  subst hl
  simp
  omega

/-- **C1**: for every input string whose expression markers are all
balanced and not hidden inside quoted literals (`wellScanned`), the
scanner splits it into an alternating sequence of text segments and
expressions — `md` has exactly one more entry than `exp` — whose
interleaved concatenation `md[0] ++ exp[0] ++ md[1] ++ …` reproduces the
input exactly. -/
theorem scanExpr_reconstruction (l : List Char) :
    wellScanned l = true →
    joinScan (scanExpr l).md (scanExpr l).exp = l ∧
    (scanExpr l).md.length = (scanExpr l).exp.length + 1 := by
  induction l using scanExpr.induct with
  | case1 x hm =>
    intro _
    rw [scanExpr.eq_def]
    split
    · simp [joinScan]
    · next pre m after2 heq =>
      rw [hm] at heq
      exact absurd heq (by simp)
  | case2 x pre m after2 hm he =>
    intro hws
    rw [wellScanned.eq_def] at hws
    split at hws
    · next heq => rw [hm] at heq; exact absurd heq (by simp)
    · next p2 m2 a2 heq =>
      rw [hm] at heq
      injection heq with heq2
      injection heq2 with h1 heq3
      injection heq3 with h2 h3
      subst h1; subst h2; subst h3
      split at hws
      · exact absurd hws (by simp)
      · next b2 r2 he2 => rw [he] at he2; exact absurd he2 (by simp)
  | case3 x pre m after2 hm body rest he ih =>
    intro hws
    rw [wellScanned.eq_def] at hws
    split at hws
    · next heq => rw [hm] at heq; exact absurd heq (by simp)
    · next p2 m2 a2 heq =>
      rw [hm] at heq
      injection heq with heq2
      injection heq2 with h1 heq3
      injection heq3 with h2 h3
      subst h1; subst h2; subst h3
      split at hws
      · next he2 => rw [he] at he2; exact absurd he2 (by simp)
      · next b2 r2 he2 =>
        rw [he] at he2
        injection he2 with he3
        injection he3 with h4 h5
        subst h4; subst h5
        have hj := ih hws
        rw [scanExpr.eq_def]
        split
        · next heq2 => rw [hm] at heq2; exact absurd heq2 (by simp)
        · next p3 m3 a3 heq2 =>
          rw [hm] at heq2
          injection heq2 with heq3
          injection heq3 with g1 geq
          injection geq with g2 g3
          subst g1; subst g2; subst g3
          split
          · next he4 => rw [he] at he4; exact absurd he4 (by simp)
          · next b3 r3 he4 =>
            rw [he] at he4
            injection he4 with he5
            injection he5 with g4 g5
            subst g4; subst g5
            have hx := findMarker_eq x pre m after2 hm
            have ha := (findEnd_eq after2 none 1 '{' body rest he).1
            constructor
            · simp only [joinScan]
              rw [hj.1]
              subst hx; subst ha
              simp
            · simp [hj.2]

/-- Concrete well-scanned input used by the C1 witness: `a$\x7bb\x7dc`. -/
def scanW : List Char := ['a', '$', '{', 'b', '}', 'c']

/-- Witness for **C1** at the concrete input `a$\x7bb\x7dc`. -/
theorem scanExpr_reconstruction_witness :
    wellScanned scanW = true ∧
    (joinScan (scanExpr scanW).md (scanExpr scanW).exp = scanW ∧
     (scanExpr scanW).md.length = (scanExpr scanW).exp.length + 1) := by
  have hws : wellScanned scanW = true := by
    rw [wellScanned.eq_def]
    simp [scanW, findMarker, findEnd, isMarkerChar, quoteD, quoteS, quoteB, backslash]
    rw [wellScanned.eq_def]
    simp [findMarker]
  exact ⟨hws, scanExpr_reconstruction scanW hws⟩

/-- **C2** (failing input): on the unterminated input `x$\x7by` the scanner
does *not* simply turn the remainder into the trailing text segment.  It
first pushes the text before the marker (`x`) onto `md`, and on the
unterminated break pushes `str.slice(i)` — the whole suffix starting
*before* that text — so `md = [x, x$\x7by]`: the text `x` is duplicated,
the interleaved concatenation no longer reproduces the input, and the
documented `md.length = exp.length + 1` invariant is broken. -/
theorem scanExpr_unterminated_duplicates :
    scanExpr ['x', '$', '{', 'y'] = ⟨[['x'], ['x', '$', '{', 'y']], []⟩ ∧
    joinScan (scanExpr ['x', '$', '{', 'y']).md (scanExpr ['x', '$', '{', 'y']).exp
      = ['x', 'x', '$', '{', 'y'] ∧
    (scanExpr ['x', '$', '{', 'y']).md.length ≠
      (scanExpr ['x', '$', '{', 'y']).exp.length + 1 := by
  have h : scanExpr ['x', '$', '{', 'y'] = ⟨[['x'], ['x', '$', '{', 'y']], []⟩ := by
    rw [scanExpr.eq_def]
    simp [findMarker, findEnd, isMarkerChar, quoteD, quoteS, quoteB, backslash]
  exact ⟨h, by rw [h]; simp [joinScan], by rw [h]; simp⟩

/-! ## Deferred-marker rewrite (`#render`, src/publican.js line 551)

Before the rendered body is stored on the record as `contentRendered`,
`#render` rewrites every remaining immediate marker `$\x7b` to the
deferred form `!\x7b` via `content.replace(/\$\{/g, '!{')`. -/

/-- Models `content.replace(/\$\{/g, '!\x7b')`: the left-to-right,
non-overlapping global replacement of `$\x7b` by `!\x7b`. -/
def deferMarkers : List Char → List Char
  | [] => []
  | [c] => [c]
  | c :: d :: rest =>
    if c = '$' ∧ d = '{' then '!' :: '{' :: deferMarkers rest
    else c :: deferMarkers (d :: rest)

/-- Whether a string contains the immediate expression marker `$\x7b`. -/
def hasImmediateMarker : List Char → Bool
  | [] => false
  | [_] => false
  | c :: d :: rest => (decide (c = '$') && decide (d = '{')) || hasImmediateMarker (d :: rest)

theorem hasImmediateMarker_cons (c : Char) (x : List Char) (hc : c ≠ '$') :
    hasImmediateMarker (c :: x) = hasImmediateMarker x := by
  cases x with
  | nil => simp [hasImmediateMarker]
  | cons d r => simp [hasImmediateMarker, hc]

theorem deferMarkers_head_ne (d : Char) (rest : List Char) (hd : d ≠ '{') :
    ∀ e r2, deferMarkers (d :: rest) = e :: r2 → e ≠ '{' := by
  intro e r2 h
  cases rest with
  | nil => rw [deferMarkers] at h; injection h with h1 _; subst h1; exact hd
  | cons g r3 =>
    rw [deferMarkers] at h
    split at h
    · injection h with h1 _; subst h1; intro hcon; exact absurd hcon (by decide)
    · injection h with h1 _; subst h1; exact hd

theorem deferMarkers_no_immediate_list (l : List Char) :
    hasImmediateMarker (deferMarkers l) = false := by
  induction l using deferMarkers.induct with
  | case1 => simp [deferMarkers, hasImmediateMarker]
  | case2 c => simp [deferMarkers, hasImmediateMarker]
  | case3 c d rest hcd ih =>
    rw [deferMarkers, if_pos hcd]
    rw [hasImmediateMarker_cons _ _ (by decide)]
    rw [hasImmediateMarker_cons _ _ (by decide)]
    exact ih
  | case4 c d rest hcd ih =>
    rw [deferMarkers, if_neg hcd]
    by_cases hc : c = '$'
    · have hd : d ≠ '{' := by
        intro hd; exact hcd ⟨hc, hd⟩
      subst hc
      cases hy : deferMarkers (d :: rest) with
      | nil => simp [hasImmediateMarker]
      | cons e r2 =>
        have he := deferMarkers_head_ne d rest hd e r2 hy
        rw [hy] at ih
        simp [hasImmediateMarker, he]
        exact ih
    · rw [hasImmediateMarker_cons _ _ hc]
      exact ih

/-- **C10**: after the render pass's deferred-marker rewrite
(`content.replace(/\$\{/g, '!{')`, src/publican.js line 551), the stored
`contentRendered` body contains no occurrence of the immediate marker
`$\x7b`. -/
theorem contentRendered_no_immediate (content : String) :
    hasImmediateMarker (deferMarkers content.data) = false :=
  deferMarkers_no_immediate_list content.data

/-! ## Template renderer iteration cap (`templateParse`, src/lib/tacs.js lines 39-59)

`templateParse` repeatedly re-renders the template while its length keeps
changing.  Each pass goes through `parser`, which decrements the shared
`maxIterations` budget (initially 50) and returns the evaluated string
while the budget is positive, and the empty string once it is exhausted.
The host-language evaluation `eval('html` + str + `')` (an external
collaborator, shared with `include`) is abstracted as a parameter
`ev : String → String`; `include` calls would only consume the budget
faster, so the modelled per-pass decrement is the upper bound on passes.
`templateIter fuel m olen t` is the `while` loop with an explicit
unfolding depth `fuel`; the stability theorem below shows depth 53 is
never exceeded, so the loop (and hence rendering) terminates. -/

def parserCall (ev : String → String) (m : Int) (s : String) : String :=
  if 0 < m - 1 then ev s else ""

def templateIter (ev : String → String) : Nat → Int → Nat → String → String
  | 0, _, _, t => t
  | fuel + 1, m, olen, t =>
    if t.length = olen then t
    else templateIter ev fuel (m - 1) t.length (parserCall ev m t)

theorem templateIter_succ (ev : String → String) (fuel : Nat) (m : Int) (olen : Nat) (t : String) :
    templateIter ev (fuel + 1) m olen t =
      if t.length = olen then t
      else templateIter ev fuel (m - 1) t.length (parserCall ev m t) := rfl

def resolveDeferred : List Char → List Char
  | [] => []
  | [c] => [c]
  | c :: d :: rest =>
    if c = '!' ∧ d = '{' then '$' :: '{' :: resolveDeferred rest
    else c :: resolveDeferred (d :: rest)

def templateParse (ev : String → String) (fuel : Nat) (t : String) : String :=
  ⟨resolveDeferred (templateIter ev fuel 50 0 t).data⟩

theorem templateIter_low (ev : String → String) (m : Int) (hm : m ≤ 0)
    (olen : Nat) (t : String) (f : Nat) :
    templateIter ev (f + 3) m olen t = templateIter ev 3 m olen t := by
  have e1 : templateIter ev (f + 3) m olen t =
      if t.length = olen then t
      else templateIter ev (f + 2) (m - 1) t.length (parserCall ev m t) :=
    templateIter_succ ev (f + 2) m olen t
  have e2 : templateIter ev 3 m olen t =
      if t.length = olen then t
      else templateIter ev 2 (m - 1) t.length (parserCall ev m t) :=
    templateIter_succ ev 2 m olen t
  rw [e1, e2]
  by_cases h1 : t.length = olen
  · simp [h1]
  · rw [if_neg h1, if_neg h1]
    have hpc : parserCall ev m t = "" := by
      unfold parserCall; rw [if_neg]; omega
    rw [hpc]
    have e3 : templateIter ev (f + 2) (m - 1) t.length ("" : String) =
        if ("" : String).length = t.length then ("" : String)
        else templateIter ev (f + 1) (m - 1 - 1) ("" : String).length (parserCall ev (m - 1) "") :=
      templateIter_succ ev (f + 1) (m - 1) t.length ""
    have e4 : templateIter ev 2 (m - 1) t.length ("" : String) =
        if ("" : String).length = t.length then ("" : String)
        else templateIter ev 1 (m - 1 - 1) ("" : String).length (parserCall ev (m - 1) "") :=
      templateIter_succ ev 1 (m - 1) t.length ""
    rw [e3, e4]
    by_cases h2 : ("" : String).length = t.length
    · simp [h2]
    · rw [if_neg h2, if_neg h2]
      have hpc2 : parserCall ev (m - 1) "" = "" := by
        unfold parserCall; rw [if_neg]; omega
      rw [hpc2]
      have e5 : templateIter ev (f + 1) (m - 1 - 1) ("" : String).length ("" : String) =
          if ("" : String).length = ("" : String).length then ("" : String)
          else templateIter ev f (m - 1 - 1 - 1) ("" : String).length (parserCall ev (m - 1 - 1) "") :=
        templateIter_succ ev f (m - 1 - 1) ("" : String).length ""
      have e6 : templateIter ev 1 (m - 1 - 1) ("" : String).length ("" : String) =
          if ("" : String).length = ("" : String).length then ("" : String)
          else templateIter ev 0 (m - 1 - 1 - 1) ("" : String).length (parserCall ev (m - 1 - 1) "") :=
        templateIter_succ ev 0 (m - 1 - 1) ("" : String).length ""
      rw [e5, e6, if_pos rfl, if_pos rfl]

theorem templateIter_stable (ev : String → String) :
    ∀ (k : Nat) (m : Int), m.toNat = k →
    ∀ (olen : Nat) (t : String) (f : Nat),
    templateIter ev (k + 3 + f) m olen t = templateIter ev (k + 3) m olen t := by
  intro k
  induction k with
  | zero =>
    intro m hm olen t f
    have hm0 : m ≤ 0 := by omega
    have h := templateIter_low ev m hm0 olen t f
    have hfe : 0 + 3 + f = f + 3 := by omega
    have hfe2 : 0 + 3 = 3 := by omega
    rw [hfe, hfe2, h]
  | succ k ih =>
    intro m hm olen t f
    have hm1 : (m - 1).toNat = k := by omega
    have hfe : k + 1 + 3 + f = (k + 3 + f) + 1 := by omega
    have hfe2 : k + 1 + 3 = (k + 3) + 1 := by omega
    rw [hfe, templateIter_succ, hfe2, templateIter_succ]
    by_cases h1 : t.length = olen
    · rw [if_pos h1, if_pos h1]
    · rw [if_neg h1, if_neg h1]
      exact ih (m - 1) hm1 t.length (parserCall ev m t) f
theorem templateIter_zero_state (ev : String → String) (m : Int) (hm : m ≤ 0)
    (olen : Nat) (hol : olen ≠ 0) (f : Nat) :
    templateIter ev (f + 2) m olen "" = "" := by
  have e1 : templateIter ev (f + 2) m olen ("" : String) =
      if ("" : String).length = olen then ("" : String)
      else templateIter ev (f + 1) (m - 1) ("" : String).length (parserCall ev m "") :=
    templateIter_succ ev (f + 1) m olen ""
  have hne : ¬(("" : String).length = olen) := by
    simp only [String.length]; simpa using fun h => hol h.symm
  rw [e1, if_neg hne]
  have hpc : parserCall ev m "" = "" := by
    unfold parserCall; rw [if_neg]; omega
  rw [hpc]
  have e2 : templateIter ev (f + 1) (m - 1) ("" : String).length ("" : String) =
      if ("" : String).length = ("" : String).length then ("" : String)
      else templateIter ev f (m - 1 - 1) ("" : String).length (parserCall ev (m - 1) "") :=
    templateIter_succ ev f (m - 1) ("" : String).length ""
  rw [e2, if_pos rfl]

theorem templateIter_growth (ev : String → String)
    (hg : ∀ s, s.length < (ev s).length) :
    ∀ (k : Nat) (m : Int), m.toNat = k →
    ∀ (olen : Nat) (t : String), 0 < t.length → t.length ≠ olen →
    ∀ f, templateIter ev (k + 3 + f) m olen t = "" := by
  intro k
  induction k with
  | zero =>
    intro m hm olen t ht hne f
    have hm0 : m ≤ 0 := by omega
    have hfe : 0 + 3 + f = (f + 1) + 2 := by omega
    rw [hfe]
    have e1 : templateIter ev ((f + 1) + 2) m olen t =
        if t.length = olen then t
        else templateIter ev (f + 1 + 1) (m - 1) t.length (parserCall ev m t) :=
      templateIter_succ ev (f + 1 + 1) m olen t
    rw [e1, if_neg hne]
    have hpc : parserCall ev m t = "" := by
      unfold parserCall; rw [if_neg]; omega
    rw [hpc]
    have hfe2 : f + 1 + 1 = (f - 0) + 2 := by omega
    exact hfe2 ▸ templateIter_zero_state ev (m - 1) (by omega) t.length (by omega) (f - 0)
  | succ k ih =>
    intro m hm olen t ht hne f
    have hfe : k + 1 + 3 + f = (k + 3 + f) + 1 := by omega
    rw [hfe, templateIter_succ, if_neg hne]
    by_cases hm1 : 0 < m - 1
    · have hpc : parserCall ev m t = ev t := by
        unfold parserCall; rw [if_pos hm1]
      rw [hpc]
      have hgt := hg t
      exact ih (m - 1) (by omega) t.length (ev t) (by omega) (by omega) f
    · have hpc : parserCall ev m t = "" := by
        unfold parserCall; rw [if_neg hm1]
      rw [hpc]
      have hfe2 : k + 3 + f = (k + 1 + f) + 2 := by omega
      rw [hfe2]
      exact templateIter_zero_state ev (m - 1) (by omega) t.length (by omega) (k + 1 + f)

/-- **C3**: template rendering iterates only while the string length
changes, is bounded by the hard `maxIterations = 50` cap (53 loop
unfoldings always suffice, for every evaluator and every input, so the
render terminates), and when the cap is exceeded — e.g. by an evaluator
that keeps growing the string, as pathological recursive includes do —
the render yields the empty string for that attempt instead of looping. -/
theorem templateParse_cap (ev : String → String) (t : String) :
    (∀ fuel, 53 ≤ fuel → templateIter ev fuel 50 0 t = templateIter ev 53 50 0 t) ∧
    ((∀ s, s.length < (ev s).length) → t ≠ "" → templateParse ev 53 t = "") := by
  constructor
  · intro fuel hf
    obtain ⟨f, rfl⟩ : ∃ f, fuel = 50 + 3 + f := ⟨fuel - 53, by omega⟩
    exact templateIter_stable ev 50 50 rfl 0 t f
  · intro hg ht
    unfold templateParse
    have hlen : 0 < t.length := by
      cases t with
      | mk d =>
        cases d with
        | nil => exact absurd rfl ht
        | cons c cs => simp [String.length]
    have h0 : templateIter ev 53 50 0 t = "" := by
      have := templateIter_growth ev hg 50 50 rfl 0 t hlen (by omega) 0
      simpa using this
    rw [h0]
    rfl

/-- Evaluator that always grows the string, standing in for a pathological
recursive include; used by the C3 witness. -/
def growEv (s : String) : String := s ++ "x"

/-- Witness for **C3**: at the growing evaluator and input `a`, depth 60
agrees with depth 53, and the capped render returns the empty string. -/
theorem templateParse_cap_witness :
    templateIter growEv 60 50 0 "a" = templateIter growEv 53 50 0 "a" ∧
    templateParse growEv 53 "a" = "" := by
  have h := templateParse_cap growEv "a"
  refine ⟨h.1 60 (by omega), h.2 ?_ (by decide)⟩
  intro s
  simp [growEv]
  decide

/-! ## Expression result substitution (`html` / `toArray`, src/lib/tacs.js lines 63-103)

The tagged template literal `html` appends each literal segment, then the
evaluated expression value: `undefined` values are skipped, values with
`typeof v === 'object'` (which includes `null`, arrays, sets, maps and
plain objects) are converted via `String(toArray(v).join(''))`, and all
other values via `String(v)`.  JavaScript values are modelled by `JSVal`;
`jsToString` models default string conversion `String(v)` and `jsElem`
the element conversion used by `Array.prototype.join`, which maps `null`
and `undefined` elements to the empty string. -/

inductive JSVal where
  | str (s : String)
  | num (n : Int)
  | bool (b : Bool)
  | null
  | undef
  | arr (l : List JSVal)
  | set (l : List JSVal)
  | jmap (l : List (JSVal × JSVal))
  | obj (r : String)

def isObjectType : JSVal → Bool
  | .null | .arr _ | .set _ | .jmap _ | .obj _ => true
  | _ => false

mutual
def jsToString : JSVal → String
  | .str s => s
  | .num n => toString n
  | .bool b => if b then "true" else "false"
  | .null => "null"
  | .undef => "undefined"
  | .arr l => jsJoin "," l
  | .set _ => "[object Set]"
  | .jmap _ => "[object Map]"
  | .obj r => r
termination_by v => (sizeOf v, 0)

def jsJoin (sep : String) : List JSVal → String
  | [] => ""
  | [v] => jsElem v
  | v :: rest => jsElem v ++ sep ++ jsJoin sep rest
termination_by l => (sizeOf l, 0)

def jsElem : JSVal → String
  | .null => ""
  | .undef => ""
  | v => jsToString v
termination_by v => (sizeOf v, 1)
end

def toArray : JSVal → List JSVal
  | .arr l => l
  | .null => []
  | .undef => []
  | .set l => l
  | .jmap l => l.map Prod.snd
  | v => [v]

def htmlValue : JSVal → String
  | .undef => ""
  | v => if isObjectType v then jsJoin "" (toArray v) else jsToString v

def htmlRun : List String → List JSVal → String
  | [], _ => ""
  | s :: srest, [] => s ++ htmlRun srest []
  | s :: srest, v :: vrest => s ++ htmlValue v ++ htmlRun srest vrest

def strConcat : List String → String
  | [] => ""
  | s :: rest => s ++ strConcat rest

/-- The substitution rule exactly as claim C4 states it: `null`/`undefined`
substitute as the empty string, a list/set/map as the concatenation of its
*elements' string conversions* (the default conversion `jsToString`) in
iteration order with no separator, and anything else as its default string
conversion. -/
def specSubst : JSVal → String
  | .null => ""
  | .undef => ""
  | .arr l => strConcat (l.map jsToString)
  | .set l => strConcat (l.map jsToString)
  | .jmap l => strConcat ((l.map Prod.snd).map jsToString)
  | v => jsToString v

/-- The substitution rule as amended by C4's counterexample: identical to
the claim except that collection elements are converted by
`Array.prototype.join`'s element rule (`jsElem`), under which `null` and
`undefined` elements contribute the empty string rather than
`"null"`/`"undefined"`. -/
def codeSubst : JSVal → String
  | .null => ""
  | .undef => ""
  | .arr l => strConcat (l.map jsElem)
  | .set l => strConcat (l.map jsElem)
  | .jmap l => strConcat ((l.map Prod.snd).map jsElem)
  | v => jsToString v

theorem strConcat_nil : strConcat [] = "" := rfl
theorem strConcat_cons (s : String) (rest : List String) :
    strConcat (s :: rest) = s ++ strConcat rest := rfl

theorem jsJoin_empty_sep (l : List JSVal) :
    jsJoin "" l = strConcat (l.map jsElem) := by
  induction l with
  | nil => rw [jsJoin.eq_def]; rfl
  | cons v rest ih =>
    cases rest with
    | nil =>
      rw [jsJoin.eq_def]
      simp [strConcat]
    | cons w r2 =>
      rw [jsJoin.eq_def]
      show jsElem v ++ "" ++ jsJoin "" (w :: r2) = strConcat (List.map jsElem (v :: w :: r2))
      rw [List.map_cons, strConcat_cons, ← ih]
      simp [String.append_empty]
theorem htmlValue_eq_codeSubst (v : JSVal) : htmlValue v = codeSubst v := by
  cases v with
  | str s => rfl
  | num n => rfl
  | bool b => rfl
  | null =>
    show (if isObjectType JSVal.null then jsJoin "" (toArray JSVal.null) else jsToString JSVal.null) = _
    rw [if_pos (by rfl)]
    show jsJoin "" [] = codeSubst JSVal.null
    rw [jsJoin.eq_def]
    rfl
  | undef => rfl
  | arr l =>
    show (if isObjectType (.arr l) then jsJoin "" (toArray (.arr l)) else jsToString (.arr l)) = _
    rw [if_pos (by rfl)]
    show jsJoin "" l = codeSubst (.arr l)
    rw [jsJoin_empty_sep]
    rfl
  | set l =>
    show (if isObjectType (.set l) then jsJoin "" (toArray (.set l)) else jsToString (.set l)) = _
    rw [if_pos (by rfl)]
    show jsJoin "" l = codeSubst (.set l)
    rw [jsJoin_empty_sep]
    rfl
  | jmap l =>
    show (if isObjectType (.jmap l) then jsJoin "" (toArray (.jmap l)) else jsToString (.jmap l)) = _
    rw [if_pos (by rfl)]
    show jsJoin "" (l.map Prod.snd) = codeSubst (.jmap l)
    rw [jsJoin_empty_sep]
    rfl
  | obj r =>
    show (if isObjectType (.obj r) then jsJoin "" (toArray (.obj r)) else jsToString (.obj r)) = _
    rw [if_pos (by rfl)]
    show jsJoin "" [JSVal.obj r] = codeSubst (.obj r)
    rw [jsJoin.eq_def]
    show jsElem (.obj r) = codeSubst (.obj r)
    rw [jsElem.eq_def]
    rfl

/-- **C4 (amended)**: for every evaluated expression value, the `html`
substitution yields empty for `null`/`undefined`, the `join('')`
concatenation of the elements for a list/set/map (with `null`/`undefined`
elements contributing the empty string), and the default string conversion
for any other value. -/
theorem htmlRun_subst (a b : String) (v : JSVal) :
    htmlRun [a, b] [v] = a ++ codeSubst v ++ b := by
  show a ++ htmlValue v ++ (b ++ "") = a ++ codeSubst v ++ b
  rw [htmlValue_eq_codeSubst]
  simp [String.append_empty, String.append_assoc]

/-- **C4 (counterexample)**: at the concrete value `[null]` the claim as
stated fails: the code substitutes the empty string (join-style element
conversion), not the element's default string conversion `"null"`. -/
theorem htmlRun_differs_spec :
    htmlRun ["", ""] [JSVal.arr [JSVal.null]] ≠
      "" ++ specSubst (JSVal.arr [JSVal.null]) ++ "" := by
  have h1 : htmlRun ["", ""] [JSVal.arr [JSVal.null]] = "" := by
    show "" ++ htmlValue (.arr [.null]) ++ ("" ++ "") = ""
    have hv : htmlValue (.arr [.null]) = "" := by
      rw [htmlValue_eq_codeSubst]
      show strConcat [jsElem .null] = ""
      rw [strConcat_cons, jsElem.eq_def]
      rfl
    rw [hv]
    rfl
  have h2 : specSubst (JSVal.arr [JSVal.null]) = "null" := by
    show strConcat [jsToString .null] = "null"
    rw [strConcat_cons, jsToString.eq_def]
    rfl
  rw [h1, h2]
  decide

/-! ## Hash-gated file writes (`#render`, src/publican.js lines 576-583)

After rendering each record, `#render` computes `strHash(content)` and
pushes a write only when the hash differs from `#writeHash.get(slug)`,
updating the map.  `strHash` (SHA-1/base64, src/unnamed/part_011 lines
366-370) is an external crypto collaborator and is abstracted as a
parameter `hash : String → String`; `#writeHash` is modelled as a
function `String → Option String` (`none` = no previous render). -/

def updateHash (wh : String → Option String) (slug h : String) : String → Option String :=
  fun s => if s = slug then some h else wh s

def renderPass (hash : String → String) :
    List (String × String) → (String → Option String) → (String → Option String) × List String
  | [], wh => (wh, [])
  | (slug, content) :: rest, wh =>
    let h := hash content
    if wh slug = some h then renderPass hash rest wh
    else
      let r := renderPass hash rest (updateHash wh slug h)
      (r.1, slug :: r.2)

theorem renderPass_writes_mem (hash : String → String) :
    ∀ (records : List (String × String)) (wh : String → Option String) (x : String),
    x ∈ (renderPass hash records wh).2 → x ∈ records.map Prod.fst := by
  intro records
  induction records with
  | nil => intro wh x h; simp [renderPass] at h
  | cons p rest ih =>
    intro wh x h
    obtain ⟨slug, content⟩ := p
    rw [renderPass] at h
    simp only [List.map_cons, List.mem_cons]
    by_cases hc : wh slug = some (hash content)
    · rw [if_pos hc] at h
      exact Or.inr (ih wh x h)
    · rw [if_neg hc] at h
      simp only [List.mem_cons] at h
      cases h with
      | inl h => exact Or.inl h
      | inr h => exact Or.inr (ih _ x h)

theorem renderPass_map_other (hash : String → String) :
    ∀ (records : List (String × String)) (wh : String → Option String) (s : String),
    s ∉ records.map Prod.fst → (renderPass hash records wh).1 s = wh s := by
  intro records
  induction records with
  | nil => intro wh s _; rfl
  | cons p rest ih =>
    intro wh s hs
    obtain ⟨slug, content⟩ := p
    simp only [List.map_cons, List.mem_cons] at hs
    push_neg at hs
    rw [renderPass]
    by_cases hc : wh slug = some (hash content)
    · rw [if_pos hc]
      exact ih wh s hs.2
    · rw [if_neg hc]
      show (renderPass hash rest (updateHash wh slug (hash content))).1 s = wh s
      rw [ih _ s hs.2]
      unfold updateHash
      rw [if_neg hs.1]

theorem renderPass_map_after (hash : String → String) :
    ∀ (records : List (String × String)), (records.map Prod.fst).Nodup →
    ∀ (wh : String → Option String) (slug c : String), (slug, c) ∈ records →
    (renderPass hash records wh).1 slug = some (hash c) := by
  intro records
  induction records with
  | nil => intro _ wh slug c h; simp at h
  | cons p rest ih =>
    intro hnd wh slug c hmem
    obtain ⟨s0, c0⟩ := p
    simp only [List.map_cons, List.nodup_cons] at hnd
    rw [renderPass]
    rcases List.mem_cons.mp hmem with hhead | htail
    · injection hhead with h1 h2
      subst h1; subst h2
      by_cases hc : wh slug = some (hash c)
      · rw [if_pos hc]
        rw [renderPass_map_other hash rest wh slug hnd.1]
        exact hc
      · rw [if_neg hc]
        show (renderPass hash rest (updateHash wh slug (hash c))).1 slug = some (hash c)
        rw [renderPass_map_other hash rest _ slug hnd.1]
        unfold updateHash
        rw [if_pos rfl]
    · by_cases hc : wh s0 = some (hash c0)
      · rw [if_pos hc]
        exact ih hnd.2 wh slug c htail
      · rw [if_neg hc]
        exact ih hnd.2 _ slug c htail

theorem renderPass_skip (hash : String → String) :
    ∀ (A rest : List (String × String)) (wh : String → Option String),
    (∀ p ∈ A, wh p.1 = some (hash p.2)) →
    renderPass hash (A ++ rest) wh = renderPass hash rest wh := by
  intro A
  induction A with
  | nil => intro rest wh _; rfl
  | cons p A2 ih =>
    intro rest wh hall
    obtain ⟨slug, content⟩ := p
    rw [List.cons_append, renderPass]
    rw [if_pos (hall (slug, content) (List.mem_cons_self _ _))]
    exact ih rest wh (fun q hq => hall q (List.mem_cons_of_mem _ hq))

theorem renderPass_no_writes (hash : String → String)
    (records : List (String × String)) (wh : String → Option String)
    (hall : ∀ p ∈ records, wh p.1 = some (hash p.2)) :
    renderPass hash records wh = (wh, []) := by
  have := renderPass_skip hash records [] wh hall
  rw [List.append_nil] at this
  rw [this]
  rfl

theorem renderPass_gating (hash : String → String) :
    ∀ (records : List (String × String)), (records.map Prod.fst).Nodup →
    ∀ (wh : String → Option String) (slug c : String), (slug, c) ∈ records →
    (slug ∈ (renderPass hash records wh).2 ↔ wh slug ≠ some (hash c)) := by
  intro records
  induction records with
  | nil => intro _ wh slug c h; simp at h
  | cons p rest ih =>
    intro hnd wh slug c hmem
    obtain ⟨s0, c0⟩ := p
    simp only [List.map_cons, List.nodup_cons] at hnd
    rw [renderPass]
    rcases List.mem_cons.mp hmem with hhead | htail
    · injection hhead with h1 h2
      subst h1; subst h2
      by_cases hc : wh slug = some (hash c)
      · rw [if_pos hc]
        simp only [hc, ne_eq, not_true_eq_false, iff_false]
        intro hin
        exact hnd.1 (renderPass_writes_mem hash rest wh slug hin)
      · rw [if_neg hc]
        simp only [List.mem_cons, ne_eq, hc, not_false_eq_true, iff_true]
        exact Or.inl trivial
    · have hne : slug ≠ s0 := by
        intro he
        subst he
        exact hnd.1 (List.mem_map_of_mem Prod.fst htail)
      by_cases hc : wh s0 = some (hash c0)
      · rw [if_pos hc]
        exact ih hnd.2 wh slug c htail
      · rw [if_neg hc]
        show slug ∈ s0 :: (renderPass hash rest (updateHash wh s0 (hash c0))).2 ↔ _
        rw [List.mem_cons]
        have hup : updateHash wh s0 (hash c0) slug = wh slug := by
          unfold updateHash
          rw [if_neg hne]
        rw [← hup]
        have hiff := ih hnd.2 (updateHash wh s0 (hash c0)) slug c htail
        constructor
        · intro h
          cases h with
          | inl h => exact absurd h hne
          | inr h => exact hiff.mp h
        · intro h
          exact Or.inr (hiff.mpr h)
/-- **C5**: over any pass whose slugs are distinct (slugs are unique across
the record set), (1) a slug is written iff the hash of its rendered
content differs from the hash recorded for it; (2) re-rendering the same
records with unchanged inputs after a pass produces zero writes; and
(3) changing exactly one record's content to one with a different hash
produces exactly one write, for that slug. -/
theorem renderPass_hash_gated (hash : String → String)
    (records : List (String × String)) (wh : String → Option String)
    (hnd : (records.map Prod.fst).Nodup) :
    (∀ slug c, (slug, c) ∈ records →
      (slug ∈ (renderPass hash records wh).2 ↔ wh slug ≠ some (hash c))) ∧
    (renderPass hash records (renderPass hash records wh).1).2 = [] ∧
    (∀ A B s c c2, records = A ++ (s, c) :: B → hash c2 ≠ hash c →
      (renderPass hash (A ++ (s, c2) :: B) (renderPass hash records wh).1).2 = [s]) := by
  refine ⟨fun slug c hm => renderPass_gating hash records hnd wh slug c hm, ?_, ?_⟩
  · have hall : ∀ p ∈ records, (renderPass hash records wh).1 p.1 = some (hash p.2) := by
      intro p hp
      exact renderPass_map_after hash records hnd wh p.1 p.2 (by simpa using hp)
    rw [renderPass_no_writes hash records _ hall]
  · intro A B s c c2 hrec hne
    subst hrec
    have hall1 : ∀ p ∈ A ++ (s, c) :: B,
        (renderPass hash (A ++ (s, c) :: B) wh).1 p.1 = some (hash p.2) := by
      intro p hp
      exact renderPass_map_after hash _ hnd wh p.1 p.2 (by simpa using hp)
    have hskip := renderPass_skip hash A ((s, c2) :: B) (renderPass hash (A ++ (s, c) :: B) wh).1
      (fun p hp => hall1 p (List.mem_append_left _ hp))
    rw [hskip]
    rw [renderPass]
    have hws : (renderPass hash (A ++ (s, c) :: B) wh).1 s = some (hash c) :=
      renderPass_map_after hash _ hnd wh s c (by simp)
    have hcond : ¬((renderPass hash (A ++ (s, c) :: B) wh).1 s = some (hash c2)) := by
      rw [hws]
      intro hcontra
      injection hcontra with hx
      exact hne hx.symm
    rw [if_neg hcond]
    have hsB : s ∉ List.map Prod.fst B := by
      have h2 : (List.map Prod.fst A ++ List.map Prod.fst ((s, c) :: B)).Nodup := by
        rw [← List.map_append]
        exact hnd
      have h3 := h2.of_append_right
      exact (List.nodup_cons.mp (by simpa using h3)).1
    have hBall : ∀ p ∈ B,
        updateHash (renderPass hash (A ++ (s, c) :: B) wh).1 s (hash c2) p.1 = some (hash p.2) := by
      intro p hp
      have hpne : p.1 ≠ s := by
        intro he
        exact hsB (he ▸ List.mem_map_of_mem Prod.fst hp)
      unfold updateHash
      rw [if_neg hpne]
      exact hall1 p (by simp [hp])
    rw [renderPass_no_writes hash B _ hBall]

/-- Concrete stand-in hash function for the C5 witness. -/
def hashW : String → String := fun s => s

/-- Witness for **C5** on a concrete two-record pass. -/
theorem renderPass_hash_gated_witness :
    ("a" ∈ (renderPass hashW [("a", "x"), ("b", "y")] (fun _ => none)).2 ↔
      (fun _ => none : String → Option String) "a" ≠ some (hashW "x")) ∧
    (renderPass hashW [("a", "x"), ("b", "y")]
      (renderPass hashW [("a", "x"), ("b", "y")] (fun _ => none)).1).2 = [] ∧
    (renderPass hashW [("a", "x"), ("b", "z")]
      (renderPass hashW [("a", "x"), ("b", "y")] (fun _ => none)).1).2 = ["b"] := by
  have h := renderPass_hash_gated hashW [("a", "x"), ("b", "y")] (fun _ => none) (by decide)
  exact ⟨h.1 "a" "x" (by decide), h.2.1,
    h.2.2 [("a", "x")] [] "b" "y" "z" (by decide) (by decide)⟩

/-! ## Pagination (`#paginate`, src/publican.js lines 627-673; `chunk`,
src/unnamed/part_011 lines 339-349)

`#paginate` splits each directory/tag group into chunks of the configured
page size and synthesizes one listing record per chunk with a `pagination`
object carrying the page slice and back/next/all-page links built with
node `path.join`.  `path.join` is an external collaborator; `pathJoin`
models it for the POSIX segments `#paginate` passes (drop empty segments,
join with `/`, collapse duplicate separators; `.`/`..` segments never
occur in those calls).  Record fields not involved in claim C6 (title,
date, template, …) are omitted from `Pagin`. -/

def squashAfter (prev : Char) : List Char → List Char
  | [] => []
  | c :: rest => if prev = '/' ∧ c = '/' then squashAfter prev rest else c :: squashAfter c rest

def squashSlash : List Char → List Char
  | [] => []
  | c :: rest => c :: squashAfter c rest

def pathJoin (parts : List String) : String :=
  ⟨squashSlash (String.intercalate "/" (parts.filter (fun p => p ≠ ""))).data⟩

def chunkAux (s : Nat) : List α → List (List α)
  | [] => []
  | c :: rest => (c :: rest).take (s + 1) :: chunkAux s ((c :: rest).drop (s + 1))
termination_by l => l.length
decreasing_by
  simp [List.length_drop]
  omega

def chunk (l : List α) (chunkSize : Nat) : List (List α) :=
  match chunkSize with
  | 0 => []
  | s + 1 => chunkAux s l

structure Pagin (α : Type) where
  page : List α
  pageTotal : Nat
  pageCurrent : Nat
  pageCurrent1 : Nat
  subpageFrom1 : Nat
  subpageTo1 : Nat
  hrefBack : Option String
  hrefNext : Option String
  href : List String

def pagHref (cfgRoot root name : String) (idx : Nat) : String :=
  pathJoin [cfgRoot, root, name, if idx = 0 then "" else toString idx, "/"]

def paginateGroup (cfgRoot root name : String) (size : Nat) (list : List α) :
    List (String × Pagin α) :=
  if list.length = 0 then []
  else
    (List.range (chunk list size).length).map (fun p =>
      (pathJoin [root, name, if p = 0 then "" else toString p, "/index.html"],
       { page := (chunk list size).getD p []
         pageTotal := (chunk list size).length
         pageCurrent := p
         pageCurrent1 := p + 1
         subpageFrom1 := p * size + 1
         subpageTo1 := min list.length ((p + 1) * size)
         hrefBack := if 0 < p then some (pagHref cfgRoot root name (p - 1)) else none
         hrefNext := if p + 1 < (chunk list size).length then some (pagHref cfgRoot root name (p + 1)) else none
         href := (List.range (chunk list size).length).map (pagHref cfgRoot root name) }))

/-- **C6**: a group of 7 items with page size 3 yields exactly 3 synthetic
listing records with page slices sized `[3, 3, 1]`; on page 1 (0-indexed)
`hrefBack` is the page-0 root-style URL with no page-number suffix (the
`String(p > 1 ? p - 1 : '')` segment is empty and dropped by `join`, as the
concrete `tag/js/` evaluation shows) while `hrefNext` points to page 2;
and a non-empty group not exceeding the page size stays in one single
chunk (only larger groups are split). -/
theorem paginate_seven_by_three {α : Type} (l : List α) (cfgRoot root name : String)
    (h7 : l.length = 7) :
    (paginateGroup cfgRoot root name 3 l).length = 3 ∧
    ((paginateGroup cfgRoot root name 3 l).map (fun pr => pr.2.page.length)) = [3, 3, 1] ∧
    ((paginateGroup cfgRoot root name 3 l).get? 1).map (fun pr => pr.2.hrefBack) =
      some (some (pagHref cfgRoot root name 0)) ∧
    ((paginateGroup cfgRoot root name 3 l).get? 1).map (fun pr => pr.2.hrefNext) =
      some (some (pagHref cfgRoot root name 2)) ∧
    pagHref cfgRoot root name 0 = pathJoin [cfgRoot, root, name, "/"] ∧
    pagHref "" "tag" "js" 0 = "tag/js/" ∧
    pagHref "" "tag" "js" 2 = "tag/js/2/" ∧
    (∀ (m : List α) (size : Nat), m ≠ [] → m.length ≤ size → chunk m size = [m]) := by
  rcases l with _ | ⟨a, _ | ⟨b, _ | ⟨c, _ | ⟨d, _ | ⟨e, _ | ⟨f, _ | ⟨g, _ | ⟨x, t⟩⟩⟩⟩⟩⟩⟩⟩ <;>
    simp at h7
  have hch : chunk [a, b, c, d, e, f, g] 3 = [[a, b, c], [d, e, f], [g]] := by
    show chunkAux 2 [a, b, c, d, e, f, g] = _
    simp [chunkAux.eq_def]
  refine ⟨?_, ?_, ?_, ?_, ?_, ?_, ?_, ?_⟩
  · simp [paginateGroup, hch]
  · simp [paginateGroup, hch, List.range_succ]
  · simp [paginateGroup, hch, List.range_succ]
  · simp [paginateGroup, hch, List.range_succ]
  · simp [pagHref, pathJoin, List.filter]
  · decide
  · decide
  · intro m size hm hle
    match size with
    | 0 =>
      exfalso
      have : m.length = 0 := Nat.le_zero.mp hle
      exact hm (List.length_eq_zero.mp this)
    | s + 1 =>
      show chunkAux s m = [m]
      match m with
      | [] => exact absurd rfl hm
      | c2 :: r2 =>
        rw [chunkAux.eq_def]
        simp only
        rw [List.take_of_length_le hle, List.drop_eq_nil_of_le hle]
        rw [chunkAux.eq_def]
/-- Witness for **C6** at the concrete group `0,…,6` with page size 3. -/
theorem paginate_seven_by_three_witness :
    (paginateGroup "" "tag" "js" 3 (List.range 7)).length = 3 ∧
    ((paginateGroup "" "tag" "js" 3 (List.range 7)).map (fun pr => pr.2.page.length)) = [3, 3, 1] ∧
    chunk [0, 1] 3 = [[0, 1]] := by
  have h := paginate_seven_by_three (List.range 7) "" "tag" "js" (by decide)
  exact ⟨h.1, h.2.1, h.2.2.2.2.2.2.2 [0, 1] 3 (by decide) (by decide)⟩

/-! ## Slug derivation (`slugify`, src/unnamed/part_011 lines 12-28)

`slugify` lowercases the filename, checks the extension via node
`path.parse`, and for page-like extensions strips characters with
`filename.replace(/#|!|$|^|~|\s/gi, '')` (in that regex `$` and `^` are
anchors matching empty strings, so those two characters are *not*
removed), replaces backslashes by slashes, lowercases, re-parses, and
rebuilds a directory-style `…/index.html` slug, special-casing a bare
`index`; other extensions pass through as-is.  Finally `strReplacer`
applies the caller's replacement map and the result is trimmed.
`path.parse` (node, POSIX) is modelled by `posixParse`: `dir` is the part
before the last separator (`/` for root-anchored ones), `name`/`ext`
split the basename at its last dot, a leading dot or basename `..` giving
an empty `ext`; trailing separators are ignored and an all-separator path
parses as the root. -/

def jsSpace (c : Char) : Bool :=
  c.toNat = 32 || c.toNat = 9 || c.toNat = 10 || c.toNat = 13 || c.toNat = 11 || c.toNat = 12 ||
  c.toNat = 0xa0 || c.toNat = 0x1680 || (0x2000 ≤ c.toNat && c.toNat ≤ 0x200a) ||
  c.toNat = 0x2028 || c.toNat = 0x2029 || c.toNat = 0x202f || c.toNat = 0x205f ||
  c.toNat = 0x3000 || c.toNat = 0xfeff

def removedBySlugRegex (c : Char) : Bool :=
  c.toNat = 35 || c.toNat = 33 || c.toNat = 126 || jsSpace c

def slugStrip (l : List Char) : List Char := l.filter (fun c => !removedBySlugRegex c)

def replSlashes (l : List Char) : List Char := l.map (fun c => if c = '\\' then '/' else c)

def lowerL (l : List Char) : List Char := l.map Char.toLower

def trimL (l : List Char) : List Char :=
  ((l.dropWhile jsSpace).reverse.dropWhile jsSpace).reverse

def endsWithL (suffix l : List Char) : Bool := suffix.isSuffixOf l

def lastSplit (sep : Char) (l : List Char) : Option (List Char × List Char) :=
  if (l.reverse.takeWhile (fun c => c ≠ sep)).length = l.length then none
  else some ((l.reverse.drop ((l.reverse.takeWhile (fun c => c ≠ sep)).length + 1)).reverse,
             (l.reverse.takeWhile (fun c => c ≠ sep)).reverse)

structure PathParts where
  dir : List Char
  name : List Char
  ext : List Char
deriving DecidableEq, Repr

def dropTrailingSlashes (l : List Char) : List Char :=
  (l.reverse.dropWhile (fun c => c = '/')).reverse

def splitBase (base : List Char) : List Char × List Char :=
  if base = ['.', '.'] then (base, [])
  else
    match lastSplit '.' base with
    | none => (base, [])
    | some (pre, post) => if pre = [] then (base, []) else (pre, '.' :: post)

def posixParse (l : List Char) : PathParts :=
  if l ≠ [] ∧ dropTrailingSlashes l = [] then ⟨['/'], [], []⟩
  else
    match lastSplit '/' (dropTrailingSlashes l) with
    | none => ⟨[], (splitBase (dropTrailingSlashes l)).1, (splitBase (dropTrailingSlashes l)).2⟩
    | some (pre, post) =>
      ⟨if pre = [] then ['/'] else pre, (splitBase post).1, (splitBase post).2⟩

def replaceAllL (pat repl : List Char) : List Char → List Char
  | [] => []
  | c :: rest =>
    if pat ≠ [] ∧ pat.isPrefixOf (c :: rest) then
      repl ++ replaceAllL pat repl ((c :: rest).drop pat.length)
    else c :: replaceAllL pat repl rest
termination_by l => l.length
decreasing_by
  · rename_i h
    have hp : pat.length ≠ 0 := fun he => h.1 (List.length_eq_zero.mp he)
    simp [List.length_drop]
    omega
  · simp

def strReplacerL (l : List Char) (map : List (List Char × List Char)) : List Char :=
  map.foldl (fun acc pr => replaceAllL pr.1 pr.2 acc) l

def slugBase (p : PathParts) : List Char :=
  (if p.dir ≠ [] then p.dir ++ ['/'] else []) ++ p.name

def buildSlug (p : PathParts) : List Char :=
  slugBase p ++
    (if slugBase p = "index".data ∨ endsWithL "/index".data (slugBase p) = true then []
     else "/index".data) ++ ".html".data

def pageLike (l : List Char) : Prop :=
  (posixParse (lowerL l)).ext = ".html".data ∨ (posixParse (lowerL l)).ext = ".md".data

instance (l : List Char) : Decidable (pageLike l) := by
  unfold pageLike
  infer_instance

def slugify (filename : List Char) (replaceMap : List (List Char × List Char)) : List Char :=
  trimL (strReplacerL
    (if pageLike filename then
       buildSlug (posixParse (lowerL (replSlashes (slugStrip filename))))
     else filename)
    replaceMap)

theorem takeWhile_append_stop {p : Char → Bool} (xs : List Char) (y : Char) (ys : List Char)
    (hxs : ∀ x ∈ xs, p x = true) (hy : p y = false) :
    (xs ++ y :: ys).takeWhile p = xs := by
  induction xs with
  | nil => simp [List.takeWhile_cons, hy]
  | cons a as ih =>
    have ha := hxs a (by simp)
    simp only [List.cons_append, List.takeWhile_cons, ha, if_true]
    rw [ih (fun x hx => hxs x (by simp [hx]))]

theorem dropWhile_head_false {p : Char → Bool} (l : List Char) (x : Char) (xs : List Char)
    (h : l.dropWhile p = x :: xs) : p x = false := by
  induction l with
  | nil => simp at h
  | cons a as ih =>
    rw [List.dropWhile_cons] at h
    by_cases hpa : p a = true
    · rw [if_pos hpa] at h
      exact ih h
    · rw [if_neg hpa] at h
      injection h with h1 _
      subst h1
      simpa using hpa

theorem lastSplit_some (sep : Char) (l pre post : List Char)
    (h : lastSplit sep l = some (pre, post)) :
    l = pre ++ sep :: post ∧ sep ∉ post := by
  unfold lastSplit at h
  set tw := l.reverse.takeWhile (fun c => (c ≠ sep : Bool)) with htw
  by_cases hlen : tw.length = l.length
  · rw [if_pos hlen] at h; simp at h
  · rw [if_neg hlen] at h
    simp only [Option.some.injEq, Prod.mk.injEq] at h
    obtain ⟨h1, h2⟩ := h
    have hsplit := List.takeWhile_append_dropWhile (fun c => (c ≠ sep : Bool)) l.reverse
    rw [← htw] at hsplit
    cases hdrop : l.reverse.dropWhile (fun c => (c ≠ sep : Bool)) with
    | nil =>
      exfalso
      apply hlen
      rw [hdrop, List.append_nil] at hsplit
      rw [hsplit]
      simp
    | cons d0 dtail =>
      have hd0 : (fun c => (c ≠ sep : Bool)) d0 = false := dropWhile_head_false _ _ _ hdrop
      simp only [decide_eq_false_iff_not, ne_eq, not_not] at hd0
      rw [hd0] at hdrop
      rw [hdrop] at hsplit
      have hrev : l.reverse = tw ++ sep :: dtail := hsplit.symm
      have hdroplen : l.reverse.drop (tw.length + 1) = dtail := by
        rw [hrev]
        rw [show tw ++ sep :: dtail = (tw ++ [sep]) ++ dtail by simp]
        rw [show tw.length + 1 = (tw ++ [sep]).length by simp]
        rw [List.drop_left]
      constructor
      · have hll : l = l.reverse.reverse := by simp
        rw [hll, hrev, ← h1, ← h2, hdroplen]
        simp
      · rw [← h2]
        intro hmem
        have := List.mem_takeWhile_imp (htw ▸ List.mem_reverse.mp hmem)
        simp at this

theorem lastSplit_append (sep : Char) (pre post : List Char) (h : sep ∉ post) :
    lastSplit sep (pre ++ sep :: post) = some (pre, post) := by
  have hrev : (pre ++ sep :: post).reverse = post.reverse ++ sep :: pre.reverse := by
    simp
  have htw : (pre ++ sep :: post).reverse.takeWhile (fun c => (c ≠ sep : Bool)) = post.reverse := by
    rw [hrev]
    refine takeWhile_append_stop _ _ _ ?_ (by simp)
    intro x hx
    have hxp : x ∈ post := List.mem_reverse.mp hx
    simp
    intro he
    exact h (he ▸ hxp)
  unfold lastSplit
  rw [htw]
  have hlen2 : post.reverse.length ≠ (pre ++ sep :: post).length := by
    simp
    omega
  rw [if_neg hlen2]
  have hdr : (pre ++ sep :: post).reverse.drop (post.reverse.length + 1) = pre.reverse := by
    rw [hrev]
    rw [show post.reverse ++ sep :: pre.reverse = (post.reverse ++ [sep]) ++ pre.reverse by simp]
    rw [show post.reverse.length + 1 = (post.reverse ++ [sep]).length by simp]
    rw [List.drop_left]
  rw [hdr]
  simp

theorem lastSplit_of_not_mem (sep : Char) (l : List Char) (h : sep ∉ l) :
    lastSplit sep l = none := by
  have htw : l.reverse.takeWhile (fun c => (c ≠ sep : Bool)) = l.reverse := by
    apply List.takeWhile_eq_self_iff.mpr
    intro x hx
    have hxp : x ∈ l := List.mem_reverse.mp hx
    simp
    intro he
    exact h (he ▸ hxp)
  unfold lastSplit
  rw [htw]
  simp

theorem lastSplit_unique {sep : Char} {a x b y : List Char} (hx : sep ∉ x) (hy : sep ∉ y)
    (h : a ++ sep :: x = b ++ sep :: y) : a = b ∧ x = y := by
  have h1 := lastSplit_append sep a x hx
  have h2 := lastSplit_append sep b y hy
  rw [h, h2] at h1
  injection h1 with h1
  injection h1 with hab hxy
  exact ⟨hab.symm, hxy.symm⟩

theorem dropTrailingSlashes_concat (u : List Char) (c : Char) (hc : c ≠ '/') :
    dropTrailingSlashes (u ++ [c]) = u ++ [c] := by
  unfold dropTrailingSlashes
  rw [List.reverse_append]
  simp only [List.reverse_cons, List.reverse_nil, List.nil_append, List.singleton_append]
  rw [List.dropWhile_cons_of_neg (by simpa using hc)]
  simp

theorem mem_dropTrailingSlashes (l : List Char) (c : Char)
    (h : c ∈ dropTrailingSlashes l) : c ∈ l := by
  unfold dropTrailingSlashes at h
  have h1 := List.mem_reverse.mp h
  have h2 := (List.dropWhile_sublist (fun c => (c = '/' : Bool))).subset h1
  exact List.mem_reverse.mp h2

theorem posixParse_app (d base : List Char) (hb : base ≠ []) (hsl : '/' ∉ base) :
    posixParse (d ++ '/' :: base) =
      ⟨if d = [] then ['/'] else d, (splitBase base).1, (splitBase base).2⟩ := by
  obtain ⟨binit, blast, hbeq⟩ := (List.eq_nil_or_concat base).resolve_left hb
  have hble : blast ∈ base := by rw [hbeq, List.concat_eq_append]; simp
  have hbl : blast ≠ '/' := fun he => hsl (he ▸ hble)
  have hdts : dropTrailingSlashes (d ++ '/' :: base) = d ++ '/' :: base := by
    conv =>
      lhs
      rw [hbeq, List.concat_eq_append]
      rw [show d ++ '/' :: (binit ++ [blast]) = (d ++ '/' :: binit) ++ [blast] by simp]
    rw [dropTrailingSlashes_concat _ _ hbl]
    rw [hbeq, List.concat_eq_append]
    simp
  unfold posixParse
  rw [hdts]
  rw [if_neg (by simp)]
  rw [lastSplit_append '/' d base hsl]

theorem posixParse_noslash (l : List Char) (hne : l ≠ []) (hsl : '/' ∉ l) :
    posixParse l = ⟨[], (splitBase l).1, (splitBase l).2⟩ := by
  obtain ⟨binit, blast, hbeq⟩ := (List.eq_nil_or_concat l).resolve_left hne
  have hble : blast ∈ l := by rw [hbeq, List.concat_eq_append]; simp
  have hbl : blast ≠ '/' := fun he => hsl (he ▸ hble)
  have hdts : dropTrailingSlashes l = l := by
    conv =>
      lhs
      rw [hbeq, List.concat_eq_append]
    rw [dropTrailingSlashes_concat _ _ hbl]
    rw [hbeq, List.concat_eq_append]
  unfold posixParse
  rw [hdts, if_neg (fun hcon => hne hcon.2), lastSplit_of_not_mem '/' l hsl]

theorem splitBase_mem (b : List Char) :
    (∀ c ∈ (splitBase b).1, c ∈ b) ∧ (∀ c ∈ (splitBase b).2, c ∈ b) := by
  unfold splitBase
  split
  · constructor
    · intro c hc; exact hc
    · intro c hc; simp at hc
  · split
    · constructor
      · intro c hc; exact hc
      · intro c hc; simp at hc
    · next pre post heq =>
      have hsome := lastSplit_some '.' b pre post heq
      split
      · constructor
        · intro c hc; exact hc
        · intro c hc; simp at hc
      · constructor
        · intro c hc
          simp only at hc
          rw [hsome.1]
          exact List.mem_append_left _ hc
        · intro c hc
          simp only [List.mem_cons] at hc
          rw [hsome.1]
          rcases hc with hc | hc
          · subst hc
            exact List.mem_append_right _ (by simp)
          · exact List.mem_append_right _ (by simp [hc])

theorem splitBase_ext_shape (b : List Char) :
    (splitBase b).2 = [] ∨ ∃ post, (splitBase b).2 = '.' :: post := by
  unfold splitBase
  split
  · exact Or.inl rfl
  · split
    · exact Or.inl rfl
    · split
      · exact Or.inl rfl
      · exact Or.inr ⟨_, rfl⟩

theorem posixParse_dir_mem (l : List Char) (c : Char) (h : c ∈ (posixParse l).dir) :
    c ∈ l ∨ c = '/' := by
  unfold posixParse at h
  split at h
  · simp at h
    exact Or.inr h
  · split at h
    · simp at h
    · next pre post heq =>
      have hsome := lastSplit_some '/' (dropTrailingSlashes l) pre post heq
      simp only at h
      split at h
      · simp at h
        exact Or.inr h
      · left
        apply mem_dropTrailingSlashes
        rw [hsome.1]
        exact List.mem_append_left _ h

theorem posixParse_name_mem (l : List Char) (c : Char) (h : c ∈ (posixParse l).name) :
    c ∈ l := by
  unfold posixParse at h
  split at h
  · simp at h
  · split at h
    · exact mem_dropTrailingSlashes l c ((splitBase_mem _).1 c h)
    · next pre post heq =>
      have hsome := lastSplit_some '/' (dropTrailingSlashes l) pre post heq
      apply mem_dropTrailingSlashes
      rw [hsome.1]
      exact List.mem_append_right _ (by simp [(splitBase_mem _).1 c h])

theorem posixParse_ext_mem (l : List Char) (c : Char) (h : c ∈ (posixParse l).ext) :
    c ∈ l := by
  unfold posixParse at h
  split at h
  · simp at h
  · split at h
    · exact mem_dropTrailingSlashes l c ((splitBase_mem _).2 c h)
    · next pre post heq =>
      have hsome := lastSplit_some '/' (dropTrailingSlashes l) pre post heq
      apply mem_dropTrailingSlashes
      rw [hsome.1]
      exact List.mem_append_right _ (by simp [(splitBase_mem _).2 c h])

theorem posixParse_ext_shape (l : List Char) :
    (posixParse l).ext = [] ∨ ∃ post, (posixParse l).ext = '.' :: post := by
  unfold posixParse
  split
  · exact Or.inl rfl
  · split
    · exact splitBase_ext_shape _
    · exact splitBase_ext_shape _

theorem posixParse_ext_dot (l : List Char) (h : (posixParse l).ext ≠ []) : '.' ∈ l := by
  rcases posixParse_ext_shape l with hs | ⟨post, hs⟩
  · exact absurd hs h
  · exact posixParse_ext_mem l '.' (by rw [hs]; simp)

theorem lastSplit_none_not_mem (sep : Char) (l : List Char)
    (h : lastSplit sep l = none) : sep ∉ l := by
  unfold lastSplit at h
  by_cases hlen : (l.reverse.takeWhile (fun c => (c ≠ sep : Bool))).length = l.length
  · have hsub := List.takeWhile_sublist (fun c => (c ≠ sep : Bool)) (l := l.reverse)
    have heq := hsub.eq_of_length (by rw [hlen]; simp)
    intro hmem
    have := List.mem_takeWhile_imp (heq ▸ List.mem_reverse.mpr hmem)
    simp at this
  · rw [if_neg hlen] at h
    simp at h

theorem splitBase_name_ne_nil (b : List Char) (hb : b ≠ []) : (splitBase b).1 ≠ [] := by
  unfold splitBase
  split
  · exact hb
  · split
    · exact hb
    · next pre post heq =>
      split
      · exact hb
      · next hpre => exact hpre

theorem posixParse_name_no_slash (l : List Char) : '/' ∉ (posixParse l).name := by
  unfold posixParse
  split
  · simp
  · split
    · next heq =>
      intro hmem
      have h1 := (splitBase_mem _).1 _ hmem
      exact lastSplit_none_not_mem '/' _ heq h1
    · next pre post heq =>
      intro hmem
      have h1 := (splitBase_mem _).1 _ hmem
      exact (lastSplit_some '/' _ pre post heq).2 h1

theorem posixParse_not_both_nil (l : List Char) (hl : l ≠ []) :
    ¬((posixParse l).dir = [] ∧ (posixParse l).name = []) := by
  unfold posixParse
  split
  · simp
  · next hcond =>
    have hdts : dropTrailingSlashes l ≠ [] := by
      intro he
      exact hcond ⟨hl, he⟩
    split
    · intro hcon
      exact splitBase_name_ne_nil _ hdts hcon.2
    · next pre post heq =>
      intro hcon
      have := hcon.1
      split at this
      · simp at this
      · next hpre => exact hpre this

theorem char_toNat_ofNat (n : Nat) (h : n.isValidChar) : (Char.ofNat n).toNat = n := by
  rw [Char.ofNat, dif_pos h]
  rfl

theorem char_eq_of_toNat_eq {a b : Char} (h : a.toNat = b.toNat) : a = b := by
  have := congrArg Char.ofNat h
  rwa [Char.ofNat_toNat, Char.ofNat_toNat] at this

theorem toLower_toNat (c : Char) :
    (Char.toLower c).toNat = if 65 ≤ c.toNat ∧ c.toNat ≤ 90 then c.toNat + 32 else c.toNat := by
  unfold Char.toLower
  split
  · next h =>
    rw [if_pos ⟨h.1, h.2⟩]
    exact char_toNat_ofNat _ (Or.inl (by omega))
  · next h =>
    rw [if_neg h]

theorem toLower_idem (c : Char) : Char.toLower (Char.toLower c) = Char.toLower c := by
  apply char_eq_of_toNat_eq
  rw [toLower_toNat, toLower_toNat c]
  by_cases h : 65 ≤ c.toNat ∧ c.toNat ≤ 90
  · rw [if_pos h, if_neg (by omega)]
  · rw [if_neg h, if_neg h]

theorem removed_toLower (c : Char) (h : removedBySlugRegex c = false) :
    removedBySlugRegex (Char.toLower c) = false := by
  unfold removedBySlugRegex jsSpace at h ⊢
  rw [toLower_toNat]
  by_cases hc : 65 ≤ c.toNat ∧ c.toNat ≤ 90
  · rw [if_pos hc]
    simp only [Bool.or_eq_false_iff, decide_eq_false_iff_not, Bool.and_eq_false_iff,
      not_le, decide_eq_true_eq] at h ⊢
    omega
  · rw [if_neg hc]
    exact h

theorem toLower_ne_backslash (c : Char) (h : c ≠ '\\') : Char.toLower c ≠ '\\' := by
  intro he
  have : (Char.toLower c).toNat = 92 := by rw [he]; rfl
  rw [toLower_toNat] at this
  by_cases hc : 65 ≤ c.toNat ∧ c.toNat ≤ 90
  · rw [if_pos hc] at this
    omega
  · rw [if_neg hc] at this
    exact h (char_eq_of_toNat_eq (by rw [this]; rfl))

theorem mem_slugStrip (f : List Char) (c : Char) (h : c ∈ slugStrip f) :
    removedBySlugRegex c = false := by
  unfold slugStrip at h
  have := List.of_mem_filter h
  simpa using this

theorem mem_replSlashes (l : List Char) (c : Char) (h : c ∈ replSlashes l) :
    c = '/' ∨ c ∈ l := by
  unfold replSlashes at h
  obtain ⟨d, hd, hde⟩ := List.mem_map.mp h
  by_cases hds : d = '\\'
  · rw [if_pos hds] at hde
    exact Or.inl hde.symm
  · rw [if_neg hds] at hde
    exact Or.inr (hde ▸ hd)

theorem replSlashes_ne_backslash (l : List Char) (c : Char) (h : c ∈ replSlashes l) :
    c ≠ '\\' := by
  unfold replSlashes at h
  obtain ⟨d, _, hde⟩ := List.mem_map.mp h
  by_cases hds : d = '\\'
  · rw [if_pos hds] at hde
    subst hde
    decide
  · rw [if_neg hds] at hde
    exact hde ▸ hds

/-- Every character of the stripped, slash-normalised, lowercased filename
is neither removed by the slug regex nor a backslash, and is fixed by
lowercasing. -/
theorem good_g (f : List Char) (c : Char)
    (h : c ∈ lowerL (replSlashes (slugStrip f))) :
    removedBySlugRegex c = false ∧ c ≠ '\\' ∧ Char.toLower c = c := by
  unfold lowerL at h
  obtain ⟨d, hd, hde⟩ := List.mem_map.mp h
  have hdrem : removedBySlugRegex d = false := by
    rcases mem_replSlashes _ d hd with hd2 | hd2
    · subst hd2; decide
    · exact mem_slugStrip f d hd2
  have hdbs : d ≠ '\\' := replSlashes_ne_backslash _ d hd
  subst hde
  exact ⟨removed_toLower d hdrem, toLower_ne_backslash d hdbs, toLower_idem d⟩

theorem mem_buildSlug (p : PathParts) (c : Char) (h : c ∈ buildSlug p) :
    c ∈ p.dir ∨ c ∈ p.name ∨ c ∈ "/index.html".data := by
  unfold buildSlug at h
  rcases List.mem_append.mp h with h1 | h2
  · rcases List.mem_append.mp h1 with hsb | hx
    · unfold slugBase at hsb
      rcases List.mem_append.mp hsb with h5 | h6
      · split at h5
        · rcases List.mem_append.mp h5 with h7 | h8
          · exact Or.inl h7
          · right; right
            simp at h8
            subst h8
            decide
        · simp at h5
      · exact Or.inr (Or.inl h6)
    · split at hx
      · simp at hx
      · right; right
        have hsub : ∀ x ∈ "/index".data, x ∈ "/index.html".data := by decide
        exact hsub c hx
  · right; right
    have hsub : ∀ x ∈ ".html".data, x ∈ "/index.html".data := by decide
    exact hsub c h2

/-- Characters of the page-branch slug are clean: not stripped by the slug
regex, no backslash, lowercase-fixed. -/
theorem good_buildSlug (f : List Char) (c : Char)
    (h : c ∈ buildSlug (posixParse (lowerL (replSlashes (slugStrip f))))) :
    removedBySlugRegex c = false ∧ c ≠ '\\' ∧ Char.toLower c = c := by
  rcases mem_buildSlug _ c h with hd | hn | hl
  · rcases posixParse_dir_mem _ c hd with h2 | h2
    · exact good_g f c h2
    · subst h2; refine ⟨by decide, by decide, by decide⟩
  · exact good_g f c (posixParse_name_mem _ c hn)
  · have hsub : ∀ x ∈ "/index.html".data,
        removedBySlugRegex x = false ∧ x ≠ '\\' ∧ Char.toLower x = x := by decide
    exact hsub c hl

theorem dropWhile_of_all_false {p : Char → Bool} (l : List Char)
    (h : ∀ c ∈ l, p c = false) : l.dropWhile p = l := by
  cases l with
  | nil => rfl
  | cons a as => exact List.dropWhile_cons_of_neg (by simp [h a (by simp)])

theorem trimL_id (l : List Char) (h : ∀ c ∈ l, jsSpace c = false) : trimL l = l := by
  unfold trimL
  rw [dropWhile_of_all_false l h]
  rw [dropWhile_of_all_false _ (fun c hc => h c (List.mem_reverse.mp hc))]
  simp

theorem strReplacerL_nil (l : List Char) : strReplacerL l [] = l := rfl

theorem jsSpace_of_removed (c : Char) (h : removedBySlugRegex c = false) : jsSpace c = false := by
  unfold removedBySlugRegex at h
  simp only [Bool.or_eq_false_iff] at h
  exact h.2

theorem slugify_page (f : List Char) (hp : pageLike f) :
    slugify f [] = buildSlug (posixParse (lowerL (replSlashes (slugStrip f)))) := by
  unfold slugify
  rw [if_pos hp, strReplacerL_nil]
  exact trimL_id _ (fun c hc => jsSpace_of_removed c (good_buildSlug f c hc).1)

theorem slugify_nonpage (f : List Char) (hp : ¬pageLike f) :
    slugify f [] = trimL f := by
  unfold slugify
  rw [if_neg hp, strReplacerL_nil]

theorem endsWithL_append (s u : List Char) : endsWithL s (u ++ s) = true := by
  unfold endsWithL
  exact List.isSuffixOf_iff_suffix.mpr ⟨u, rfl⟩

theorem buildSlug_endsWith (p : PathParts) :
    endsWithL "index.html".data (buildSlug p) = true := by
  unfold buildSlug
  by_cases hcond : slugBase p = "index".data ∨ endsWithL "/index".data (slugBase p) = true
  · rw [if_pos hcond]
    rcases hcond with hc | hc
    · rw [hc]
      rw [show ("index".data ++ [] : List Char) ++ ".html".data = [] ++ "index.html".data by decide]
      exact endsWithL_append _ _
    · obtain ⟨u, hu⟩ := List.isSuffixOf_iff_suffix.mp hc
      rw [← hu]
      rw [show ((u ++ "/index".data ++ [] : List Char) ++ ".html".data) =
            (u ++ ['/']) ++ "index.html".data by simp]
      exact endsWithL_append _ _
  · rw [if_neg hcond]
    rw [show ((slugBase p ++ "/index".data : List Char) ++ ".html".data) =
          (slugBase p ++ ['/']) ++ "index.html".data by simp]
    exact endsWithL_append _ _

/-- **C7 (counterexample)**: the claim fails on the code in two ways.  For
`a$b.md` the `$` survives (the stripping regex treats `$` and `^` as
anchors), giving slug `a$b/index.html`; and the non-page filename
`a b.css` passes through with *no* character stripping at all — the space
is kept. -/
theorem slugify_literal_counterexample :
    ('$' ∈ slugify "a$b.md".data []) ∧ slugify "a$b.md".data [] = "a$b/index.html".data ∧
    (' ' ∈ slugify "a b.css".data []) ∧ slugify "a b.css".data [] = "a b.css".data := by
  decide

/-- **C7 (amended)**: for page-like extensions (`.md`/`.html` on the
lowercased filename) the derived slug is a directory-style path ending in
the standardized index filename and contains none of the characters the
stripping regex actually removes (`#`, `!`, `~`, whitespace — not `$`/`^`,
which are regex anchors); a bare `index` is special-cased to `index.html`
rather than `index/index.html`; filenames with any other extension pass
through entirely unchanged apart from trimming (and the caller's
replacement map, empty here). -/
theorem slugify_amended_props :
    (∀ f : List Char, pageLike f →
       endsWithL "index.html".data (slugify f []) = true ∧
       ∀ c ∈ slugify f [], removedBySlugRegex c = false) ∧
    (∀ f : List Char, ¬pageLike f → slugify f [] = trimL f) ∧
    slugify "index.md".data [] = "index.html".data := by
  refine ⟨?_, fun f hp => slugify_nonpage f hp, by decide⟩
  intro f hp
  rw [slugify_page f hp]
  exact ⟨buildSlug_endsWith _, fun c hc => (good_buildSlug f c hc).1⟩

/-- Witness for **C7 (amended)** at `my post.md` and `style.css`. -/
theorem slugify_amended_props_witness :
    endsWithL "index.html".data (slugify "my post.md".data []) = true ∧
    slugify "style.css".data [] = trimL "style.css".data := by
  have h := slugify_amended_props
  exact ⟨(h.1 "my post.md".data (by decide)).1, h.2.1 "style.css".data (by decide)⟩

theorem buildSlug_of_cond (p : PathParts)
    (h : slugBase p = "index".data ∨ endsWithL "/index".data (slugBase p) = true) :
    buildSlug p = slugBase p ++ ".html".data := by
  unfold buildSlug
  rw [if_pos h, List.append_nil]

theorem buildSlug_of_not_cond (p : PathParts)
    (h : ¬(slugBase p = "index".data ∨ endsWithL "/index".data (slugBase p) = true)) :
    buildSlug p = slugBase p ++ "/index.html".data := by
  unfold buildSlug
  rw [if_neg h, List.append_assoc]
  rfl

theorem buildSlug_of_dir_index (D : List Char) (hD : D ≠ []) :
    buildSlug ⟨D, "index".data, ".html".data⟩ = D ++ "/index.html".data := by
  unfold buildSlug slugBase
  simp only [hD, ne_eq, not_false_eq_true, if_true, reduceIte]
  have hs1 : (D ++ ['/']) ++ "index".data = D ++ "/index".data := by simp
  rw [hs1]
  rw [if_pos (Or.inr (endsWithL_append "/index".data D))]
  rw [List.append_nil]
  rw [List.append_assoc]
  rfl

theorem lowerL_id (l : List Char) (h : ∀ c ∈ l, Char.toLower c = c) : lowerL l = l := by
  unfold lowerL
  rw [List.map_congr_left (g := fun c => c) h, List.map_id']

theorem slugStrip_id (l : List Char) (h : ∀ c ∈ l, removedBySlugRegex c = false) :
    slugStrip l = l := by
  unfold slugStrip
  exact List.filter_eq_self.mpr (fun c hc => by simp [h c hc])

theorem replSlashes_id (l : List Char) (h : ∀ c ∈ l, c ≠ '\\') : replSlashes l = l := by
  unfold replSlashes
  rw [List.map_congr_left (g := fun c => c) (fun c hc => if_neg (h c hc)), List.map_id']

theorem slugify_fixed_of (f D : List Char) (hD : D ≠ [])
    (hout : buildSlug (posixParse (lowerL (replSlashes (slugStrip f)))) = D ++ "/index.html".data) :
    slugify (buildSlug (posixParse (lowerL (replSlashes (slugStrip f))))) [] =
      buildSlug (posixParse (lowerL (replSlashes (slugStrip f)))) := by
  have hsb : splitBase "index.html".data = ("index".data, ".html".data) := by decide
  have hpp : posixParse (buildSlug (posixParse (lowerL (replSlashes (slugStrip f))))) =
      ⟨D, "index".data, ".html".data⟩ := by
    rw [hout]
    rw [show (D ++ "/index.html".data : List Char) = D ++ '/' :: "index.html".data from rfl]
    rw [posixParse_app D "index.html".data (by decide) (by decide)]
    rw [if_neg hD, hsb]
  have hpage2 : pageLike (buildSlug (posixParse (lowerL (replSlashes (slugStrip f))))) := by
    unfold pageLike
    rw [lowerL_id _ (fun c hc => (good_buildSlug f c hc).2.2), hpp]
    exact Or.inl rfl
  rw [slugify_page _ hpage2]
  rw [slugStrip_id _ (fun c hc => (good_buildSlug f c hc).1)]
  rw [replSlashes_id _ (fun c hc => (good_buildSlug f c hc).2.1)]
  rw [lowerL_id _ (fun c hc => (good_buildSlug f c hc).2.2)]
  rw [hpp, buildSlug_of_dir_index D hD, ← hout]

/-- **C8 (amended)**: slug derivation is idempotent on every slug derived
from a page-like filename (`.md`/`.html` extension):
`slugify (slugify f) = slugify f`.  Slugs of non-page filenames are just
the trimmed filename and need not be fixed points, because trimming can
expose a page-like extension (see the counterexample). -/
theorem slugify_idem_page (f : List Char) (hp : pageLike f) :
    slugify (slugify f []) [] = slugify f [] := by
  rw [slugify_page f hp]
  have hextne : (posixParse (lowerL f)).ext ≠ [] := by
    rcases hp with hp | hp <;> rw [hp] <;> decide
  have hdotf : '.' ∈ lowerL f := posixParse_ext_dot _ hextne
  have hdotf2 : '.' ∈ f := by
    obtain ⟨d, hd, hde⟩ := List.mem_map.mp hdotf
    have hdd : d = '.' := by
      have h2 := congrArg Char.toNat hde
      rw [toLower_toNat] at h2
      by_cases hc : 65 ≤ d.toNat ∧ d.toNat ≤ 90
      · rw [if_pos hc] at h2
        have h46 : ('.' : Char).toNat = 46 := rfl
        omega
      · rw [if_neg hc] at h2
        exact char_eq_of_toNat_eq h2
    exact hdd ▸ hd
  have hgne : lowerL (replSlashes (slugStrip f)) ≠ [] := by
    apply List.ne_nil_of_mem (a := '.')
    apply List.mem_map.mpr
    refine ⟨'.', ?_, by decide⟩
    apply List.mem_map.mpr
    refine ⟨'.', ?_, by decide⟩
    exact List.mem_filter.mpr ⟨hdotf2, by decide⟩
  have hnos : '/' ∉ (posixParse (lowerL (replSlashes (slugStrip f)))).name :=
    posixParse_name_no_slash _
  have hnn := posixParse_not_both_nil _ hgne
  by_cases hcond :
      slugBase (posixParse (lowerL (replSlashes (slugStrip f)))) = "index".data ∨
      endsWithL "/index".data (slugBase (posixParse (lowerL (replSlashes (slugStrip f))))) = true
  · rcases hcond with hc | hc
    · have hout : buildSlug (posixParse (lowerL (replSlashes (slugStrip f)))) =
          "index.html".data := by
        rw [buildSlug_of_cond _ (Or.inl hc), hc]
        decide
      rw [hout]
      decide
    · obtain ⟨u, hu⟩ := List.isSuffixOf_iff_suffix.mp hc
      have hdir : (posixParse (lowerL (replSlashes (slugStrip f)))).dir ≠ [] := by
        intro hdir0
        apply hnos
        have hsb : slugBase (posixParse (lowerL (replSlashes (slugStrip f)))) =
            (posixParse (lowerL (replSlashes (slugStrip f)))).name := by
          unfold slugBase
          rw [hdir0]
          simp
        rw [← hsb, ← hu]
        exact List.mem_append_right u (by decide)
      have hsb2 : slugBase (posixParse (lowerL (replSlashes (slugStrip f)))) =
          (posixParse (lowerL (replSlashes (slugStrip f)))).dir ++
            '/' :: (posixParse (lowerL (replSlashes (slugStrip f)))).name := by
        unfold slugBase
        rw [if_pos hdir]
        simp
      have hkey : u ++ '/' :: "index".data =
          (posixParse (lowerL (replSlashes (slugStrip f)))).dir ++
            '/' :: (posixParse (lowerL (replSlashes (slugStrip f)))).name := by
        rw [show (u ++ '/' :: "index".data : List Char) = u ++ "/index".data from rfl, hu, hsb2]
      obtain ⟨hueq, hname⟩ := lastSplit_unique (by decide) hnos hkey
      have hune : u ≠ [] := by
        rw [hueq]
        exact hdir
      have hout : buildSlug (posixParse (lowerL (replSlashes (slugStrip f)))) =
          u ++ "/index.html".data := by
        rw [buildSlug_of_cond _ (Or.inr hc), ← hu, List.append_assoc]
        rfl
      exact slugify_fixed_of f u hune hout
  · have hs1ne : slugBase (posixParse (lowerL (replSlashes (slugStrip f)))) ≠ [] := by
      unfold slugBase
      by_cases hdir : (posixParse (lowerL (replSlashes (slugStrip f)))).dir = []
      · rw [hdir]
        simp
        intro hcontra
        exact hnn ⟨hdir, hcontra⟩
      · rw [if_pos hdir]
        simp
    exact slugify_fixed_of f _ hs1ne (buildSlug_of_not_cond _ hcond)

/-- **C8 (counterexample)**: `slugify "a.md "` (trailing space, so the
parsed extension is `.md␣`, not `.md`) takes the non-page branch and
yields the trimmed string `a.md`, which *is* an output of `slugify` but
not a fixed point: `slugify "a.md"` is `a/index.html`. -/
theorem slugify_not_idempotent :
    slugify (slugify "a.md ".data []) [] ≠ slugify "a.md ".data [] := by decide

/-- Witness for **C8 (amended)** at the page-like filename `a.md`. -/
theorem slugify_idem_page_witness :
    slugify (slugify "a.md".data []) [] = slugify "a.md".data [] :=
  slugify_idem_page "a.md".data (by decide)


/-! ## Heading anchors and contents navigation (`navHeading`,
src/unnamed/part_011 lines 235-303)

`navHeading` rewrites every `<h2>`–`<h6>` element (regex
`/<(h[2-6])(.*?)>(.*?)<\/h[2-6]>/gis`, lazy groups, case-insensitive,
dot-matches-newline), deriving an id from the heading text, counting
duplicates per document, inserting anchor links and accumulating a nested
`<ol>` contents fragment.  The scan is embedded with an explicit fuel
argument equal to the input length plus one: every step of the regex scan
consumes at least one character, so the fuel is never exhausted. -/

structure HaOpt where
  nolink : Option (List Char)
  nomenu : Option (List Char)
  linkClass : List Char
  linkContent : List Char
  navClass : List Char

def containsSub (sub : List Char) : List Char → Bool
  | [] => sub.isEmpty
  | c :: rest => sub.isPrefixOf (c :: rest) || containsSub sub rest

def splitAtGt : List Char → Option (List Char × List Char)
  | [] => none
  | c :: rest =>
    if c = '>' then some ([], rest)
    else (splitAtGt rest).map (fun pr => (c :: pr.1, pr.2))

def isHeadChar (c : Char) : Bool := c = 'h' || c = 'H'

def isHeadDigit (c : Char) : Bool := '2' ≤ c && c ≤ '6'

def matchClose : List Char → Option (List Char)
  | '<' :: '/' :: h :: d :: '>' :: rest =>
    if isHeadChar h ∧ isHeadDigit d then some rest else none
  | _ => none

def findClose : List Char → Option (List Char × List Char)
  | [] => none
  | c :: rest =>
    match matchClose (c :: rest) with
    | some r2 => some ([], r2)
    | none => (findClose rest).map (fun pr => (c :: pr.1, pr.2))

/-- Body match for one heading at a fixed start: the lazy `(.*?)>` group
tries each `>` in turn (shortest first), and for each, the lazy body group
ends at the earliest close tag.  The fuel argument only bounds the
backtracking depth; each retry starts strictly further into the string, so
`l.length + 1` units can never run out. -/
def tryBody : Nat → List Char → Option (List Char × List Char × List Char)
  | 0, _ => none
  | fuel + 1, l =>
    match splitAtGt l with
    | none => none
    | some (p2a, afterGt) =>
      match findClose afterGt with
      | some (p3, rest) => some (p2a, p3, rest)
      | none =>
        match tryBody fuel afterGt with
        | some (p2b, p3, rest) => some (p2a ++ '>' :: p2b, p3, rest)
        | none => none

def idCountGet (m : List (List Char × Nat)) (k : List Char) : Nat :=
  match m with
  | [] => 0
  | (k2, v) :: rest => if k2 = k then v else idCountGet rest k

def idCountSet (m : List (List Char × Nat)) (k : List Char) (v : Nat) :
    List (List Char × Nat) :=
  match m with
  | [] => [(k, v)]
  | (k2, v2) :: rest => if k2 = k then (k, v) :: rest else (k2, v2) :: idCountSet rest k v

def stripTags : Nat → List Char → List Char
  | 0, l => l
  | _ + 1, [] => []
  | fuel + 1, c :: rest =>
    if c = '<' then
      match splitAtGt rest with
      | some pr => stripTags fuel pr.2
      | none => c :: stripTags fuel rest
    else c :: stripTags fuel rest

def isWordChar (c : Char) : Bool :=
  ('a' ≤ c && c ≤ 'z') || ('A' ≤ c && c ≤ 'Z') || ('0' ≤ c && c ≤ '9') || c = '_'

def keepWordSpace (l : List Char) : List Char :=
  l.filter (fun c => isWordChar c || jsSpace c)

def collapseWs : Nat → List Char → List Char
  | 0, l => l
  | _ + 1, [] => []
  | fuel + 1, c :: rest =>
    if jsSpace c then '-' :: collapseWs fuel (rest.dropWhile jsSpace)
    else c :: collapseWs fuel rest

def genIdBase (p3 : List Char) : List Char :=
  lowerL (collapseWs (p3.length + 1) (keepWordSpace (stripTags (p3.length + 1) p3)))

def ensureAlpha (id : List Char) : List Char :=
  match id with
  | [] => 'a' :: '-' :: id
  | c :: _ => if c < 'a' ∨ 'z' < c then 'a' :: '-' :: id else id

def isIdValueChar (c : Char) : Bool :=
  !(c = '"' || c = quoteS || c = '|' || jsSpace c)

def isIdCloserChar (c : Char) : Bool := c = '"' || c = quoteS || jsSpace c

def matchIdAt : List Char → Option (List Char)
  | i0 :: d0 :: '=' :: rest =>
    if (i0 = 'i' ∨ i0 = 'I') ∧ (d0 = 'd' ∨ d0 = 'D') then
      let rest2 := match rest with
        | q :: r2 => if q = '"' ∨ q = quoteS then r2 else q :: r2
        | [] => rest
      let run := rest2.takeWhile isIdValueChar
      if run ≠ [] then
        match rest2.dropWhile isIdValueChar with
        | c :: _ => if isIdCloserChar c then some run else none
        | [] => none
      else none
    else none
  | _ => none

def findIdAttr : List Char → Option (List Char)
  | [] => none
  | c :: rest =>
    match matchIdAt (c :: rest) with
    | some v => some v
    | none => findIdAttr rest

def replicateL (n : Nat) (s : List Char) : List Char :=
  match n with
  | 0 => []
  | k + 1 => s ++ replicateL k s

structure NavState where
  idCount : List (List Char × Nat)
  nav : List Char
  clevel : Nat

/-- The regex-replacement callback of `navHeading` for one matched heading
`<p1 p2>p3</h*>` (with `p1 = hc :: d`): computes the link/menu/tabindex
flags, the id (reused, generated with duplicate suffix, or absent), the
contents-navigation update and the replacement element. -/
def navHeadingStep (opt : HaOpt) (st : NavState) (hc d : Char) (p2 p3 : List Char) :
    List Char × NavState :=
  let addLink := match opt.nolink with
    | none => true
    | some s => !containsSub s p2
  let addMenu := match opt.nomenu with
    | none => true
    | some s => !containsSub s p2
  let addTab := (addLink || addMenu) && !containsSub "tabindex=".data p2
  let idAttr := findIdAttr p2
  let gen := idAttr = none ∧ (addLink = true ∨ addMenu = true)
  let base := ensureAlpha (genIdBase p3)
  let cnt := idCountGet st.idCount base + 1
  let id := match idAttr with
    | some v => v
    | none =>
      if cnt > 1 then base ++ '-' :: (toString cnt).data else base
  let idCount2 := if gen then idCountSet st.idCount base cnt else st.idCount
  let insertId := gen
  let pl := d.toNat - 48
  let nav2 := st.nav ++
    replicateL (pl - st.clevel) "\n<ol><li>\n".data ++
    replicateL (st.clevel - pl) "\n</li></ol>\n".data ++
    (if pl ≤ st.clevel then "</li>\n<li>".data else []) ++
    (if addMenu then
      "<a href=\"#".data ++ id ++ "\" class=\"head-".data ++ [hc, d] ++ "\">".data ++
        p3 ++ "</a>".data
     else [])
  let repl :=
    '<' :: hc :: d :: p2 ++
    (if insertId then " id=\"".data ++ id ++ "\"".data else []) ++
    (if addTab then " tabindex=\"-1\"".data else []) ++
    '>' :: p3 ++
    (if addLink then
      " <a href=\"#".data ++ id ++ "\" class=\"".data ++ opt.linkClass ++ "\">".data ++
        opt.linkContent ++ "</a>".data
     else []) ++
    '<' :: '/' :: hc :: d :: ['>']
  (repl, ⟨idCount2, nav2, pl⟩)

def navScan (opt : HaOpt) : Nat → NavState → List Char → List Char × NavState
  | 0, st, l => (l, st)
  | _ + 1, st, [] => ([], st)
  | fuel + 1, st, '<' :: h :: d :: rest2 =>
    if isHeadChar h ∧ isHeadDigit d then
      match tryBody (rest2.length + 1) rest2 with
      | some (p2, p3, rest3) =>
        let pr := navHeadingStep opt st h d p2 p3
        let pr2 := navScan opt fuel pr.2 rest3
        (pr.1 ++ pr2.1, pr2.2)
      | none =>
        let pr2 := navScan opt fuel st (h :: d :: rest2)
        ('<' :: pr2.1, pr2.2)
    else
      let pr2 := navScan opt fuel st (h :: d :: rest2)
      ('<' :: pr2.1, pr2.2)
  | fuel + 1, st, c :: rest =>
    let pr2 := navScan opt fuel st rest
    (c :: pr2.1, pr2.2)

def matchLitCI : List Char → List Char → Option (List Char)
  | [], l => some l
  | _ :: _, [] => none
  | a :: as, c :: cs => if Char.toLower c = Char.toLower a then matchLitCI as cs else none

def matchEmptyPair (openT closeT : List Char) (l : List Char) : Option (List Char) :=
  match matchLitCI openT l with
  | none => none
  | some r1 =>
    match matchLitCI closeT (r1.dropWhile jsSpace) with
    | none => none
    | some r2 => some r2

def removeEmptyPairs (openT closeT : List Char) : Nat → List Char → List Char
  | 0, l => l
  | _ + 1, [] => []
  | fuel + 1, c :: rest =>
    match matchEmptyPair openT closeT (c :: rest) with
    | some r2 => removeEmptyPairs openT closeT fuel r2
    | none => c :: removeEmptyPairs openT closeT fuel rest

/-- `navHeading(str, haOpt)` for truthy `haOpt`: returns the rewritten
content and the contents-navigation fragment (wrapped in `<nav>`, all
levels closed, empty `<li>`/`<ol>` pairs pruned). -/
def navHeading (opt : HaOpt) (str : List Char) : List Char × List Char :=
  let pr := navScan opt (str.length + 1) ⟨[], [], 1⟩ str
  let nav := pr.2.nav
  let navOut :=
    if nav = [] then []
    else
      removeEmptyPairs "<ol>".data "</ol>".data
        ("<nav class=\"".data ++ opt.navClass ++ "\">".data ++ nav ++ '\n' ::
          replicateL (pr.2.clevel - 1) "</li></ol>".data ++ "\n</nav>".data).length
        (removeEmptyPairs "<li>".data "</li>".data
          ("<nav class=\"".data ++ opt.navClass ++ "\">".data ++ nav ++ '\n' ::
            replicateL (pr.2.clevel - 1) "</li></ol>".data ++ "\n</nav>".data).length
          ("<nav class=\"".data ++ opt.navClass ++ "\">".data ++ nav ++ '\n' ::
            replicateL (pr.2.clevel - 1) "</li></ol>".data ++ "\n</nav>".data))
  (pr.1, navOut)

def haOptC9 : HaOpt := ⟨none, none, "hl".data, "#".data, "nc".data⟩

set_option maxRecDepth 10000 in
/-- **C9**: on headings `<h2>A</h2> <h3>B</h3> <h2>C</h2>` (the HTML form
of `## A / ### B / ## C`, since the extractor runs on rendered HTML) the
contents fragment is one top-level ordered list with two items whose first
item carries one nested child list; duplicate heading text `A`, `A` gets
ids `a` and `a-2`, and a third duplicate gets `a-3` — a numeric suffix per
collision with a previously used id in the same document. -/
theorem navHeading_claims :
    (navHeading haOptC9 "<h2>A</h2>\n<h3>B</h3>\n<h2>C</h2>".data).2 =
      ("<nav class=\"nc\">\n<ol><li>\n<a href=\"#a\" class=\"head-h2\">A</a>\n" ++
       "<ol><li>\n<a href=\"#b\" class=\"head-h3\">B</a>\n</li></ol>\n</li>\n" ++
       "<li><a href=\"#c\" class=\"head-h2\">C</a>\n</li></ol>\n</nav>").data ∧
    (navHeading haOptC9 "<h2>A</h2>\n<h3>B</h3>\n<h2>C</h2>".data).1 =
      ("<h2 id=\"a\" tabindex=\"-1\">A <a href=\"#a\" class=\"hl\">#</a></h2>\n" ++
       "<h3 id=\"b\" tabindex=\"-1\">B <a href=\"#b\" class=\"hl\">#</a></h3>\n" ++
       "<h2 id=\"c\" tabindex=\"-1\">C <a href=\"#c\" class=\"hl\">#</a></h2>").data ∧
    (navHeading haOptC9 "<h2>A</h2>\n<h2>A</h2>".data).1 =
      ("<h2 id=\"a\" tabindex=\"-1\">A <a href=\"#a\" class=\"hl\">#</a></h2>\n" ++
       "<h2 id=\"a-2\" tabindex=\"-1\">A <a href=\"#a-2\" class=\"hl\">#</a></h2>").data ∧
    (navHeading haOptC9 "<h2>A</h2>\n<h2>A</h2>\n<h2>A</h2>".data).1 =
      ("<h2 id=\"a\" tabindex=\"-1\">A <a href=\"#a\" class=\"hl\">#</a></h2>\n" ++
       "<h2 id=\"a-2\" tabindex=\"-1\">A <a href=\"#a-2\" class=\"hl\">#</a></h2>\n" ++
       "<h2 id=\"a-3\" tabindex=\"-1\">A <a href=\"#a-3\" class=\"hl\">#</a></h2>").data := by
  refine ⟨by decide, by decide, by decide, by decide⟩

end Publican
